import Mathlib

/-!
# Verification of the propresenter-protobuf library core

This file gives a shallow embedding, in Lean 4, of the core of the
`propresenter-protobuf` TypeScript library: the rich-text (RTF) codec
(`rtfToText` / `textToRtf`), the document model and its traversal and
mutation operations (`getCueText`, `setCueText`, `getCuesByGroup`, ...),
the synthetic-presentation builder (`createPresentation`), and a model of
the schema-driven binary message codec used by `readPresentation` /
`writePresentation`.

Strings are modelled as `List Char` (the character sequence of a JS
string); byte blobs of the wire codec are modelled as `List Nat`.
Scanning functions that consume a variable number of characters per step
are written with an explicit fuel argument (structural recursion on the
fuel) so that every definition is executable by kernel reduction; a fuel
equal to the input length is always sufficient, which is proved below.
-/

namespace Pro

/-! ## Character classes used by the JS regexes -/

/-- `[a-z]` with the `i` flag: ASCII letter of either case. -/
def isAsciiLetter (c : Char) : Bool :=
  ('a' ≤ c && c ≤ 'z') || ('A' ≤ c && c ≤ 'Z')

/-- `\d`: ASCII digit. -/
def isDigitC (c : Char) : Bool :=
  '0' ≤ c && c ≤ '9'

/-- `[0-9a-f]` with the `i` flag. -/
def isHexDigitC (c : Char) : Bool :=
  isDigitC c || ('a' ≤ c && c ≤ 'f') || ('A' ≤ c && c ≤ 'F')

/-- JS word character (for the `\b` word boundary): `[A-Za-z0-9_]`. -/
def isWordChar (c : Char) : Bool :=
  isAsciiLetter c || isDigitC c || c = '_'

/-- JS `\s` (whitespace class), as used by `\s?`, `\s+` and `trim()`:
space, tab, line feed, vertical tab, form feed, carriage return, and the
Unicode space characters recognised by JS engines. -/
def isJsSpace (c : Char) : Bool :=
  c = ' ' || c = '\t' || c = '\n' || c = '\x0b' || c = '\x0c' || c = '\r' ||
  c = Char.ofNat 0x00a0 || c = Char.ofNat 0x1680 ||
  (Char.ofNat 0x2000 ≤ c && c ≤ Char.ofNat 0x200a) ||
  c = Char.ofNat 0x2028 || c = Char.ofNat 0x2029 || c = Char.ofNat 0x202f ||
  c = Char.ofNat 0x205f || c = Char.ofNat 0x3000 || c = Char.ofNat 0xfeff

/-- The backslash character. -/
def bslash : Char := '\\'

/-- The opening brace character. -/
def lbrace : Char := Char.ofNat 123

/-- The closing brace character. -/
def rbrace : Char := Char.ofNat 125

/-- The single-quote character, used by RTF hex escapes. -/
def squote : Char := Char.ofNat 39

/-- Value of a hex digit (`parseInt(c, 16)` for a single hex digit). -/
def hexVal (c : Char) : Nat :=
  if isDigitC c then c.toNat - 48
  else if 'a' ≤ c && c ≤ 'f' then c.toNat - 87
  else c.toNat - 55

/-! ## `rtfToText`: the stage-by-stage regex pipeline

The source performs, in order:
1. `.replace(/^\{\\rtf1[^}]*\}?/, '')`          (strip the header)
2. `.replace(/\\par\b/g, '\n')`
3. `.replace(/\\line\b/g, '\n')`
4. `.replace(/\{\\fonttbl[^}]*\}/g, '')`
5. `.replace(/\{\\colortbl[^}]*\}/g, '')`
6. `.replace(/\{\\stylesheet[^}]*\}/g, '')`
7. `.replace(/\\[a-z]+[-]?\d*\s?/gi, '')`       (strip control words)
8. `.replace(/[{}]/g, '')`                       (remove braces)
9. `.replace(/\s+/g, ' ')`                       (collapse whitespace)
10. `.trim()`
11. `.replace(/\\'([0-9a-f]{2})/gi, hex decode)`
-/

/-- Stage 1: `^\{\\rtf1[^}]*\}?` — if the text starts with the RTF
header opener, drop it, the longest run of non-closing-brace characters,
and one optional closing brace. -/
def stripHeader (l : List Char) : List Char :=
  match l with
  | '\x7b' :: '\\' :: 'r' :: 't' :: 'f' :: '1' :: rest =>
    match rest.dropWhile (fun c => c != '\x7d') with
    | '\x7d' :: r2 => r2
    | r => r
  | _ => l

/-- The `\b` word boundary after `\par` / `\line`: matches iff the next
character is absent or not a word character. -/
def atBoundary (l : List Char) : Bool :=
  match l with
  | [] => true
  | c :: _ => !(isWordChar c)

/-- Stage 2: `\\par\b` → `'\n'`, globally. A match can only start at
a backslash; on a failed boundary the scan resumes one position further
(no new match can start inside `par`, which has no backslash). -/
def replacePar : List Char → List Char
  | '\\' :: 'p' :: 'a' :: 'r' :: rest =>
    if atBoundary rest then '\n' :: replacePar rest
    else '\\' :: 'p' :: 'a' :: 'r' :: replacePar rest
  | c :: rest => c :: replacePar rest
  | [] => []

/-- Stage 3: `\\line\b` → `'\n'`, globally. -/
def replaceLine : List Char → List Char
  | '\\' :: 'l' :: 'i' :: 'n' :: 'e' :: rest =>
    if atBoundary rest then '\n' :: replaceLine rest
    else '\\' :: 'l' :: 'i' :: 'n' :: 'e' :: replaceLine rest
  | c :: rest => c :: replaceLine rest
  | [] => []

/-- Split a character list at its first closing brace: `some (before,
after)` when a closing brace exists, `none` otherwise. Used for the
`[^}]*\}` part of the auxiliary-block regexes. -/
def splitAtBrace : List Char → Option (List Char × List Char)
  | [] => none
  | c :: r =>
    if c = '\x7d' then some ([], r)
    else match splitAtBrace r with
      | some (a, b) => some (c :: a, b)
      | none => none

/-- Stages 4-6, parameterised by the block keyword (e.g. `\fonttbl`):
`\{\\KEYWORD[^}]*\}` removed globally. `fuel` bounds the recursion
(`none` on exhaustion); a fuel equal to the input length always
suffices, which is proved below. -/
def removeBlockFO (pat : List Char) : Nat → List Char → Option (List Char)
  | _, [] => some []
  | 0, _ :: _ => none
  | n + 1, c :: r =>
    if c = '\x7b' && pat.isPrefixOf r then
      match splitAtBrace (r.drop pat.length) with
      | some (_, after) => removeBlockFO pat n after
      | none => (removeBlockFO pat n r).map fun t => c :: t
    else (removeBlockFO pat n r).map fun t => c :: t

/-- Stages 4-6 with the canonical fuel. -/
def removeBlock (pat : List Char) (l : List Char) : List Char :=
  (removeBlockFO pat l.length l).getD l

/-- After a control word's letters, consume the optional hyphen, any
digits, and one optional whitespace character (`[-]?\d*\s?`). -/
def afterLetters (l : List Char) : List Char :=
  let r2 := if l.head? = some '-' then l.tail else l
  let r3 := r2.dropWhile isDigitC
  match r3 with
  | d :: t => if isJsSpace d then t else d :: t
  | [] => []

/-- Stage 7: `\\[a-z]+[-]?\d*\s?` (case-insensitive) removed globally.
`fuel` bounds the recursion (`none` on exhaustion); the input length
always suffices. -/
def stripCWO : Nat → List Char → Option (List Char)
  | _, [] => some []
  | 0, _ :: _ => none
  | n + 1, c :: r =>
    if c = '\\' then
      match r with
      | d :: r2 =>
        if isAsciiLetter d then
          stripCWO n (afterLetters (r2.dropWhile isAsciiLetter))
        else (stripCWO n r).map fun t => c :: t
      | [] => some [c]
    else (stripCWO n r).map fun t => c :: t

/-- Stage 7 with the canonical fuel. -/
def stripCW (l : List Char) : List Char :=
  (stripCWO l.length l).getD l

/-- Stage 8: `[{}]` removed globally. -/
def removeBraces (l : List Char) : List Char :=
  l.filter (fun c => c != '\x7b' && c != '\x7d')

/-- Stage 9: `\s+` → a single space, globally. `fuel` bounds the
recursion (`none` on exhaustion); the input length always suffices. -/
def collapseWSO : Nat → List Char → Option (List Char)
  | _, [] => some []
  | 0, _ :: _ => none
  | n + 1, c :: r =>
    if isJsSpace c then (collapseWSO n (r.dropWhile isJsSpace)).map fun t => ' ' :: t
    else (collapseWSO n r).map fun t => c :: t

/-- Stage 9 with the canonical fuel. -/
def collapseWS (l : List Char) : List Char :=
  (collapseWSO l.length l).getD l

/-- Stage 10: `trim()` — strip leading and trailing JS whitespace. -/
def trimWS (l : List Char) : List Char :=
  ((l.dropWhile isJsSpace).reverse.dropWhile isJsSpace).reverse

/-- Stage 11: `\\'([0-9a-f]{2})` (case-insensitive) replaced by the
character with that hexadecimal code, globally. -/
def hexDecode : List Char → List Char
  | '\\' :: q :: a :: b :: rest =>
    if q = '\x27' && isHexDigitC a && isHexDigitC b then
      Char.ofNat (16 * hexVal a + hexVal b) :: hexDecode rest
    else '\\' :: hexDecode (q :: a :: b :: rest)
  | c :: rest => c :: hexDecode rest
  | [] => []

/-- `rtfToText`: extract plain text from RTF data (the full pipeline).
The byte blob is modelled by its decoded character sequence. -/
def rtfToText (l : List Char) : List Char :=
  hexDecode (trimWS (collapseWS (removeBraces (stripCW
    (removeBlock "\\stylesheet".toList
      (removeBlock "\\colortbl".toList
        (removeBlock "\\fonttbl".toList
          (replaceLine (replacePar (stripHeader l))))))))))

/-! ## `textToRtf`: plain text to simple RTF -/

/-- The escaping performed by `textToRtf`: backslash, open brace, close
brace are backslash-escaped, and a newline becomes `\par ` (the four
sequential `.replace` calls of the source are equivalent to this single
character map, since no replacement output triggers a later rule on the
characters it introduces). -/
def escapeRtf : List Char → List Char
  | [] => []
  | c :: r =>
    (if c = '\\' then ['\\', '\\']
     else if c = '\x7b' then ['\\', '\x7b']
     else if c = '\x7d' then ['\\', '\x7d']
     else if c = '\n' then '\\' :: 'p' :: 'a' :: 'r' :: [' ']
     else [c]) ++ escapeRtf r

/-- `textToRtf(text, fontName, fontSize)`: wrap the escaped text in a
minimal RTF preamble declaring one font at twice the requested size. -/
def textToRtf (text : List Char) (fontName : List Char) (fontSize : Nat) : List Char :=
  "\x7b\\rtf1\\ansi\\deff0\x7b\\fonttbl\x7b\\f0 ".toList ++ fontName ++
    ";\x7d\x7d\\f0\\fs".toList ++ (Nat.repr (fontSize * 2)).toList ++
    [' '] ++ escapeRtf text ++ ['\x7d']

/-- `textToRtf` with the source's default arguments (`'Arial'`, `48`). -/
def textToRtfD (text : List Char) : List Char :=
  textToRtf text "Arial".toList 48

/-! ## Document model

Lean counterparts of the library's TypeScript interfaces. Optional
fields are `Option`; payloads the library treats as opaque pass-through
(formatting attribute blocks, fills, paths, timelines, ...) are modelled
by opaque `Option Nat` slots — the traversal layer never inspects them,
only preserves them. -/

/-- `{ string: string }` uuid wrapper. -/
structure UuidS where
  string : List Char
deriving DecidableEq

structure ColorS where
  red : Rat := 0
  green : Rat := 0
  blue : Rat := 0
  alpha : Rat := 0
deriving DecidableEq

structure SizeS where
  width : Rat := 0
  height : Rat := 0
deriving DecidableEq

structure RectS where
  x : Rat := 0
  y : Rat := 0
  width : Rat := 0
  height : Rat := 0
deriving DecidableEq

structure HotKeyS where
  code : Int := 0
  controlIdentifier : List Char := []
deriving DecidableEq

/-- A per-range custom attribute (`{ range: { start, end }, chord? }`);
`end` is a Lean keyword, hence `rangeStart` / `rangeEnd`. -/
structure CustomAttr where
  rangeStart : Nat := 0
  rangeEnd : Nat := 0
  chord : Option (List Char) := none
deriving DecidableEq

structure FontS where
  name : List Char := []
  size : Rat := 0
  family : List Char := []
  italic : Bool := false
  bold : Bool := false
  face : List Char := []
deriving DecidableEq

/-- The text attribute block; sub-objects the core never inspects are
opaque `Option Nat` slots. -/
structure AttrBlock where
  customAttributes : List CustomAttr := []
  font : Option FontS := none
  capitalization : Option Int := none
  underlineStyle : Option Nat := none
  underlineColor : Option Nat := none
  paragraphStyle : Option Nat := none
  kerning : Option Rat := none
  superscript : Option Int := none
  strikethroughStyle : Option Nat := none
  strikethroughColor : Option Nat := none
  strokeWidth : Option Rat := none
  strokeColor : Option ColorS := none
  backgroundColor : Option ColorS := none
  textSolidFill : Option ColorS := none
deriving DecidableEq

structure TextElement where
  attributes : Option AttrBlock := none
  shadow : Option Nat := none
  rtfData : Option (List Char) := none
  verticalAlignment : Option Int := none
  scaleBehavior : Option Int := none
  margins : Option Nat := none
deriving DecidableEq

structure GraphicsElement where
  uuid : Option UuidS := none
  name : Option (List Char) := none
  bounds : Option RectS := none
  rotation : Option Rat := none
  opacity : Option Rat := none
  locked : Option Bool := none
  aspectRatioLocked : Option Bool := none
  path : Option Nat := none
  fill : Option Nat := none
  stroke : Option Nat := none
  shadow : Option Nat := none
  feather : Option Nat := none
  text : Option TextElement := none
deriving DecidableEq

structure SlideElement where
  element : Option GraphicsElement := none
  buildIn : Option Nat := none
  buildOut : Option Nat := none
  dataLinks : List Nat := []
  childBuilds : List Nat := []
deriving DecidableEq

structure Slide where
  elements : Option (List SlideElement) := none
  size : Option SizeS := none
  uuid : Option UuidS := none
  backgroundColor : Option ColorS := none
  drawsBackgroundColor : Option Bool := none
deriving DecidableEq

/-- The `PresentationSlide` wrapper built by `createCue`
(`{ baseSlide, notes, templateGuidelines, chordChart, transition }`). -/
structure PresentationSlide where
  baseSlide : Option Slide := none
  notes : Option Nat := none
  templateGuidelines : List Nat := []
  chordChart : Option Nat := none
  transition : Option Nat := none
deriving DecidableEq

/-- What `action.slide.presentation` can hold at runtime: the `Slide`
shape declared by the library's interfaces, or the `PresentationSlide`
wrapper that `createCue` stores through an `as any` cast. Property
access is duck-typed in JS, so the traversal helpers below read
`.elements` of either variant (absent on the wrapper). -/
inductive SlidePayload where
  | plain (s : Slide)
  | wrapped (p : PresentationSlide)
deriving DecidableEq

structure SlideAction where
  presentation : Option SlidePayload := none
  prop : Option Nat := none
deriving DecidableEq

structure Action where
  uuid : Option UuidS := none
  name : Option (List Char) := none
  label : Option Nat := none
  delayTime : Option Rat := none
  oldType : Option Nat := none
  isEnabled : Option Bool := none
  layerIdentification : Option Nat := none
  duration : Option Rat := none
  type : Option Int := none
  slide : Option SlideAction := none
deriving DecidableEq

structure Cue where
  uuid : Option UuidS := none
  name : Option (List Char) := none
  hotKey : Option HotKeyS := none
  actions : Option (List Action) := none
  isEnabled : Option Bool := none
deriving DecidableEq

structure GroupDef where
  uuid : Option UuidS := none
  name : Option (List Char) := none
  color : Option ColorS := none
  hotKey : Option HotKeyS := none
  applicationGroupIdentifier : Option Nat := none
  applicationGroupName : Option (List Char) := none
deriving DecidableEq

structure CueGroup where
  group : Option GroupDef := none
  cueIdentifiers : Option (List UuidS) := none
deriving DecidableEq

structure CCLI where
  author : Option (List Char) := none
  artistCredits : Option (List Char) := none
  songTitle : Option (List Char) := none
  publisher : Option (List Char) := none
  copyrightYear : Option Nat := none
  songNumber : Option Nat := none
  display : Option Bool := none
  album : Option (List Char) := none
  artwork : Option (List Nat) := none
deriving DecidableEq

structure MusicKeyPair where
  musicKey : Nat := 0
  musicScale : Nat := 0
deriving DecidableEq

structure MusicBlock where
  originalMusicKey : List Char := []
  userMusicKey : List Char := []
  original : MusicKeyPair := {}
  user : MusicKeyPair := {}
deriving DecidableEq

structure Arrangement where
  uuid : Option UuidS := none
  name : List Char := []
  groupIdentifiers : List UuidS := []
deriving DecidableEq

structure Presentation where
  applicationInfo : Option Nat := none
  uuid : Option UuidS := none
  name : Option (List Char) := none
  lastDateUsed : Option Nat := none
  lastModifiedDate : Option Nat := none
  category : Option (List Char) := none
  notes : Option (List Char) := none
  background : Option Nat := none
  selectedArrangement : Option UuidS := none
  arrangements : Option (List Arrangement) := none
  cueGroups : Option (List CueGroup) := none
  cues : Option (List Cue) := none
  ccli : Option CCLI := none
  bibleReference : Option Nat := none
  timeline : Option Nat := none
  transition : Option Nat := none
  music : Option MusicBlock := none
deriving DecidableEq

/-! ## Traversal and mutation (`index.ts`) -/

/-- Duck-typed `slide.elements || []` on whatever object
`action.slide.presentation` holds. -/
def payloadElements : SlidePayload → List SlideElement
  | .plain s => s.elements.getD []
  | .wrapped _ => []

/-- `getSlideTextElements`: the text payloads of the elements whose
`element?.text?.rtfData` is present (an empty byte buffer is still
truthy in JS, so presence — not non-emptiness — is what is tested). -/
def getSlideTextElements (slide : SlidePayload) : List TextElement :=
  (payloadElements slide).filterMap fun se =>
    match se.element with
    | some ge =>
      match ge.text with
      | some te => if te.rtfData.isSome then some te else none
      | none => none
    | none => none

/-- `getSlideText`: decode every text element, drop the empty decodes,
join with a newline. -/
def getSlideText (slide : SlidePayload) : List Char :=
  List.intercalate ['\n']
    (((getSlideTextElements slide).map fun te => rtfToText (te.rtfData.getD [])).filter
      fun t => t.length != 0)

/-- The first action (in order) whose `slide?.presentation` is present. -/
def findPresSlide : List Action → Option SlidePayload
  | [] => none
  | a :: rest =>
    match a.slide with
    | some sa =>
      match sa.presentation with
      | some p => some p
      | none => findPresSlide rest
    | none => findPresSlide rest

/-- `getCueSlide`: the slide payload of the first slide-bearing action. -/
def getCueSlide (cue : Cue) : Option SlidePayload :=
  findPresSlide (cue.actions.getD [])

/-- `getCueText`. -/
def getCueText (cue : Cue) : List Char :=
  match getCueSlide cue with
  | none => []
  | some sl => getSlideText sl

/-- `setSlideText`'s loop over the slide's elements: replace the
`rtfData` of the first element whose `element?.text?.rtfData` is
present with `textToRtf(text)` and stop; report whether a replacement
happened. The TypeScript mutates in place; here the updated list is
returned alongside the success flag. -/
def setElementsText : List SlideElement → List Char → Bool × List SlideElement
  | [], _ => (false, [])
  | se :: rest, text =>
    match se.element with
    | some ge =>
      match ge.text with
      | some te =>
        if te.rtfData.isSome then
          (true,
            { se with
              element := some
                { ge with text := some { te with rtfData := some (textToRtfD text) } } } :: rest)
        else
          let r := setElementsText rest text
          (r.1, se :: r.2)
      | none =>
        let r := setElementsText rest text
        (r.1, se :: r.2)
    | none =>
      let r := setElementsText rest text
      (r.1, se :: r.2)

/-- `setSlideText` on the payload `getCueSlide` returns. -/
def setSlideText (slide : SlidePayload) (text : List Char) : Bool × SlidePayload :=
  match slide with
  | .wrapped p => (false, .wrapped p)
  | .plain s =>
    match s.elements with
    | none => (false, .plain s)
    | some es =>
      let r := setElementsText es text
      (r.1, .plain { s with elements := some r.2 })

/-- `setCueText`'s effect on the action list: apply `setSlideText` to
the first slide-bearing action's payload (later actions untouched). -/
def setActionsText : List Action → List Char → Bool × List Action
  | [], _ => (false, [])
  | a :: rest, text =>
    match a.slide with
    | some sa =>
      match sa.presentation with
      | some p =>
        let r := setSlideText p text
        (r.1, { a with slide := some { sa with presentation := some r.2 } } :: rest)
      | none =>
        let r := setActionsText rest text
        (r.1, a :: r.2)
    | none =>
      let r := setActionsText rest text
      (r.1, a :: r.2)

/-- `setCueText`: returns the success flag and the (possibly) updated
cue. -/
def setCueText (cue : Cue) (text : List Char) : Bool × Cue :=
  match cue.actions with
  | none => (false, cue)
  | some acts =>
    let r := setActionsText acts text
    (r.1, { cue with actions := some r.2 })

/-- `getCues`. -/
def getCues (p : Presentation) : List Cue :=
  p.cues.getD []

/-- JS `Map.prototype.set` on an insertion-ordered association list:
an existing key keeps its position and gets the new value, a new key is
appended. -/
def jsMapSet {β : Type} (m : List (List Char × β)) (k : List Char) (v : β) :
    List (List Char × β) :=
  match m with
  | [] => [(k, v)]
  | (k0, v0) :: rest =>
    if k0 = k then (k0, v) :: rest else (k0, v0) :: jsMapSet rest k v

/-- JS `Map.prototype.get`. -/
def jsMapGet {β : Type} (m : List (List Char × β)) (k : List Char) : Option β :=
  match m with
  | [] => none
  | (k0, v0) :: rest => if k0 = k then some v0 else jsMapGet rest k

/-- The `cueMap` built by `getCuesByGroup`: cues keyed by their uuid
string; a cue with a missing or empty uuid string (falsy in JS) is not
added; duplicate uuids overwrite. -/
def buildCueMap (cues : List Cue) : List (List Char × Cue) :=
  cues.foldl
    (fun m cue =>
      match cue.uuid with
      | some u => if u.string.isEmpty then m else jsMapSet m u.string cue
      | none => m)
    []

/-- `group.group?.name || 'Unnamed'` (an empty name is falsy in JS). -/
def effGroupName (g : CueGroup) : List Char :=
  match g.group with
  | some gd =>
    match gd.name with
    | some n => if n.isEmpty then "Unnamed".toList else n
    | none => "Unnamed".toList
  | none => "Unnamed".toList

/-- Resolve a group's identifier list against the cue map; identifiers
that resolve to nothing are dropped. -/
def resolveIds (m : List (List Char × Cue)) (ids : List UuidS) : List Cue :=
  ids.filterMap fun i => jsMapGet m i.string

/-- `getCuesByGroup`: an insertion-ordered map from effective group
name to resolved cue list, built with JS `Map.set` semantics. -/
def getCuesByGroup (p : Presentation) : List (List Char × List Cue) :=
  let cueMap := buildCueMap (p.cues.getD [])
  (p.cueGroups.getD []).foldl
    (fun result g => jsMapSet result (effGroupName g) (resolveIds cueMap (g.cueIdentifiers.getD [])))
    []

/-! ## Spec-reading definitions

`firstTextElement` / `textOf` as the specification words them (used to
compare the specified behaviour against the code's behaviour): walk the
actions in order; for each action whose active variant is a presentation
slide, walk that slide's elements in order and return the first element
whose content has a NON-EMPTY rich-text byte sequence; none if no such
element exists anywhere in the cue. -/

/-- First element of the list with a non-empty rich-text byte
sequence. -/
def firstTextInElements : List SlideElement → Option TextElement
  | [] => none
  | se :: rest =>
    match se.element with
    | some ge =>
      match ge.text with
      | some te =>
        if (te.rtfData.getD []).isEmpty then firstTextInElements rest else some te
      | none => firstTextInElements rest
    | none => firstTextInElements rest

/-- Spec's `firstTextElement`, walking all actions. -/
def firstTextElementSpec : List Action → Option TextElement
  | [] => none
  | a :: rest =>
    match a.slide with
    | some sa =>
      match sa.presentation with
      | some p =>
        match firstTextInElements (payloadElements p) with
        | some te => some te
        | none => firstTextElementSpec rest
      | none => firstTextElementSpec rest
    | none => firstTextElementSpec rest

/-- Spec's `textOf`: rich-text decode of the first text element, empty
string if none. -/
def textOfSpec (cue : Cue) : List Char :=
  match firstTextElementSpec (cue.actions.getD []) with
  | some te => rtfToText (te.rtfData.getD [])
  | none => []

/-- The behaviour `getCueText` actually implements, written
independently with list combinators: take the first action carrying a
presentation slide; join with newlines the non-empty decodes of ALL its
rtf-bearing elements; empty if no action carries a presentation
slide. -/
def textOfAmended (cue : Cue) : List Char :=
  match (cue.actions.getD []).findSome? (fun a => a.slide.bind fun sa => sa.presentation) with
  | none => []
  | some sl =>
    List.intercalate ['\n']
      (((((payloadElements sl).filterMap fun se => se.element.bind fun ge => ge.text).filter
            fun te => te.rtfData.isSome).map fun te => rtfToText (te.rtfData.getD [])).filter
        fun t => t.length != 0)

/-! ## Frame-condition helpers for `setCueText`

`clearFirstRtfData` performs the same traversal as `setCueText` but
erases (rather than replaces) the byte sequence it finds; two cues that
agree after erasure agree on everything except that one byte field.
`firstRtfData` extracts the byte sequence `setCueText` targets. -/

/-- The rich-text bytes of the first rtf-bearing element. -/
def firstRtfInElements : List SlideElement → Option (List Char)
  | [] => none
  | se :: rest =>
    match se.element with
    | some ge =>
      match ge.text with
      | some te =>
        match te.rtfData with
        | some d => some d
        | none => firstRtfInElements rest
      | none => firstRtfInElements rest
    | none => firstRtfInElements rest

/-- The byte sequence `setCueText` would replace. -/
def firstRtfData (cue : Cue) : Option (List Char) :=
  match getCueSlide cue with
  | some sl => firstRtfInElements (payloadElements sl)
  | none => none

/-- Erase the first rtf-bearing element's bytes (same traversal as
`setElementsText`). -/
def clearElementsRtf : List SlideElement → List SlideElement
  | [] => []
  | se :: rest =>
    match se.element with
    | some ge =>
      match ge.text with
      | some te =>
        if te.rtfData.isSome then
          { se with
            element := some { ge with text := some { te with rtfData := none } } } :: rest
        else se :: clearElementsRtf rest
      | none => se :: clearElementsRtf rest
    | none => se :: clearElementsRtf rest

/-- Erase on the payload (same shape as `setSlideText`). -/
def clearPayloadRtf : SlidePayload → SlidePayload
  | .wrapped p => .wrapped p
  | .plain s =>
    match s.elements with
    | none => .plain s
    | some es => .plain { s with elements := some (clearElementsRtf es) }

/-- Erase on the action list (same shape as `setActionsText`). -/
def clearActionsRtf : List Action → List Action
  | [] => []
  | a :: rest =>
    match a.slide with
    | some sa =>
      match sa.presentation with
      | some p =>
        { a with slide := some { sa with presentation := some (clearPayloadRtf p) } } :: rest
      | none => a :: clearActionsRtf rest
    | none => a :: clearActionsRtf rest

/-- Erase the byte sequence `setCueText` targets, leaving every other
attribute of the cue in place. -/
def clearFirstRtfData (cue : Cue) : Cue :=
  match cue.actions with
  | none => cue
  | some acts => { cue with actions := some (clearActionsRtf acts) }

/-- The number of elements of an action's presentation slide (0 when
it has none). -/
def actionElemCount (a : Action) : Nat :=
  (((a.slide.bind fun sa => sa.presentation).map payloadElements).getD []).length

/-- The per-action element counts of a cue (for the shape-preservation
statement). -/
def elemCountsOfCue (cue : Cue) : List Nat :=
  (cue.actions.getD []).map actionElemCount

/-! ## Pruning dangling group references (for the error-handling claim) -/

/-- Keep only the identifiers that resolve in the cue map. -/
def pruneIds (m : List (List Char × Cue)) (ids : List UuidS) : List UuidS :=
  ids.filter fun i => (jsMapGet m i.string).isSome

/-- Drop every dangling identifier from every group of the
presentation. -/
def pruneDangling (p : Presentation) : Presentation :=
  let m := buildCueMap (p.cues.getD [])
  { p with
    cueGroups := some ((p.cueGroups.getD []).map fun g =>
      { g with cueIdentifiers := some (pruneIds m (g.cueIdentifiers.getD [])) }) }

/-- The last group of the list bearing a given effective name. -/
def lastWithName (n : List Char) : List CueGroup → Option CueGroup
  | [] => none
  | g :: gs =>
    match lastWithName n gs with
    | some g2 => some g2
    | none => if effGroupName g = n then some g else none

/-- Insertion-ordered first-occurrence deduplication (the key order a JS
`Map` produces). -/
def dedupFirst (l : List (List Char)) : List (List Char) :=
  l.foldl (fun acc x => if x ∈ acc then acc else acc ++ [x]) []

/-! ## Concrete demonstration values -/

/-- A text element whose bytes encode `"A"`. -/
def teA : TextElement := { rtfData := some (textToRtfD "A".toList) }

/-- A text element whose bytes encode `"B"`. -/
def teB : TextElement := { rtfData := some (textToRtfD "B".toList) }

/-- Wrap a text element as a slide element. -/
def seOf (te : TextElement) : SlideElement :=
  { element := some { text := some te } }

/-- An action showing a presentation slide with the given elements. -/
def actionOf (es : List SlideElement) : Action :=
  { slide := some { presentation := some (.plain { elements := some es }) } }

/-- A cue with one presentation slide carrying two text elements,
`"A"` and `"B"`. -/
def cueAB : Cue :=
  { uuid := some ⟨"c1".toList⟩, actions := some [actionOf [seOf teA, seOf teB]] }

/-- A cue with a single text element `"B"`. -/
def cueB : Cue :=
  { uuid := some ⟨"c2".toList⟩, actions := some [actionOf [seOf teB]] }

/-- A cue whose slide has one element but no text payload. -/
def cueNoText : Cue :=
  { uuid := some ⟨"c3".toList⟩, actions := some [actionOf [{ element := some {} }]] }

/-- A presentation with two groups both named `"Verse"`, the first
referencing `cueAB`, the second `cueB`. -/
def presDupNames : Presentation :=
  { cues := some [cueAB, cueB],
    cueGroups := some
      [ { group := some { name := some "Verse".toList }, cueIdentifiers := some [⟨"c1".toList⟩] },
        { group := some { name := some "Verse".toList }, cueIdentifiers := some [⟨"c2".toList⟩] } ] }

/-- A presentation with one group holding one dangling reference
between two valid ones. -/
def presDangling : Presentation :=
  { cues := some [cueAB, cueB],
    cueGroups := some
      [ { group := some { name := some "Verse".toList },
          cueIdentifiers := some [⟨"c1".toList⟩, ⟨"missing".toList⟩, ⟨"c2".toList⟩] } ] }

/-! ## `create.ts`: building a presentation from scratch

`generateUuid` draws from `Math.random`; it is modelled by an ambient
uuid supply `g : Nat → List Char` together with an explicit counter
threaded through every construction, consumed in the source's
evaluation order. -/

/-- JS `a || dflt` for an optional string: empty is falsy. -/
def jsOrStr (a : Option (List Char)) (dflt : List Char) : List Char :=
  match a with
  | some s => if s.isEmpty then dflt else s
  | none => dflt

/-- JS `a || dflt` for an optional number: zero is falsy. -/
def jsOrNat (a : Option Nat) (dflt : Nat) : Nat :=
  match a with
  | some n => if n = 0 then dflt else n
  | none => dflt

/-- Truthiness of an optional number. -/
def truthyNat (a : Option Nat) : Bool :=
  match a with
  | some n => n != 0
  | none => false

/-- Truthiness of an optional string. -/
def truthyStr (a : Option (List Char)) : Bool :=
  match a with
  | some s => !s.isEmpty
  | none => false

structure ChordPosition where
  position : Nat := 0
  chord : List Char := []
deriving DecidableEq

/-- A slide input: a bare string or a `{ text, chords? }` object. -/
inductive SlideInputU where
  | str (text : List Char)
  | obj (text : List Char) (chords : Option (List ChordPosition))
deriving DecidableEq

/-- The text of a slide input. -/
def SlideInputU.text : SlideInputU → List Char
  | .str t => t
  | .obj t _ => t

/-- The chords of a slide input. -/
def SlideInputU.chords : SlideInputU → Option (List ChordPosition)
  | .str _ => none
  | .obj _ cs => cs

structure SectionInput where
  name : List Char := []
  slides : List SlideInputU := []
  color : Option ColorS := none
deriving DecidableEq

structure MusicKeyConfig where
  key : Nat := 0
  scale : Option Nat := none
deriving DecidableEq

structure CreatePresentationOptions where
  title : List Char := []
  artist : Option (List Char) := none
  ccliNumber : Option Nat := none
  ccliAuthor : Option (List Char) := none
  copyrightYear : Option Nat := none
  publisher : Option (List Char) := none
  category : Option (List Char) := none
  notes : Option (List Char) := none
  musicKey : Option MusicKeyConfig := none
  sections : List SectionInput := []
  fontName : Option (List Char) := none
  fontSize : Option Nat := none
  slideSize : Option SizeS := none
  textBounds : Option RectS := none
  createArrangement : Option Bool := none
deriving DecidableEq

/-- `DEFAULT_SLIDE_SIZE`. -/
def DEFAULT_SLIDE_SIZE : SizeS := { width := 1920, height := 1080 }

/-- `DEFAULT_TEXT_BOUNDS`. -/
def DEFAULT_TEXT_BOUNDS : RectS := { x := 0, y := 100, width := 1920, height := 880 }

/-- `DEFAULT_FONT` name and size. -/
def DEFAULT_FONT_NAME : List Char := "Arial".toList

def DEFAULT_FONT_SIZE : Nat := 72

def DEFAULT_TEXT_COLOR : ColorS := { red := 1, green := 1, blue := 1, alpha := 1 }

def DEFAULT_STROKE_COLOR : ColorS := { red := 0, green := 0, blue := 0, alpha := 1 }

def DEFAULT_GROUP_COLORS : List ColorS :=
  [ { red := 0, green := 0, blue := 0.998, alpha := 1 },
    { red := 0.135, green := 1, blue := 0.025, alpha := 1 },
    { red := 0.989, green := 0.415, blue := 0.032, alpha := 1 },
    { red := 1, green := 0.999, blue := 0.041, alpha := 1 },
    { red := 0.986, green := 0.007, blue := 0.027, alpha := 1 },
    { red := 0.580, green := 0.404, blue := 0.741, alpha := 1 } ]

/-- The chord-to-range conversion of `createTextElement`: each chord
covers from its position to the next chord's position (or the text
length, for the last chord). Expects the sorted chord list. -/
def chordAttrs : List ChordPosition → Nat → List CustomAttr
  | [], _ => []
  | [c], tl => [{ rangeStart := c.position, rangeEnd := tl, chord := some c.chord }]
  | c :: c2 :: rest, tl =>
    { rangeStart := c.position, rangeEnd := c2.position, chord := some c.chord } ::
      chordAttrs (c2 :: rest) tl

/-- `createTextElement`: the graphics element wrapping the RTF-encoded
text; consumes one uuid. -/
def createTextElement (g : Nat → List Char) (k : Nat) (text : List Char)
    (opts : CreatePresentationOptions) (chords : Option (List ChordPosition)) :
    GraphicsElement × Nat :=
  let fontName := jsOrStr opts.fontName DEFAULT_FONT_NAME
  let fontSize := jsOrNat opts.fontSize DEFAULT_FONT_SIZE
  let bounds := opts.textBounds.getD DEFAULT_TEXT_BOUNDS
  let rtfData := textToRtf text fontName fontSize
  let customAttributes :=
    match chords with
    | some cs =>
      if cs.length != 0 then
        chordAttrs (cs.mergeSort fun a b => a.position ≤ b.position) text.length
      else [{ rangeStart := 0, rangeEnd := text.length, chord := none }]
    | none => [{ rangeStart := 0, rangeEnd := text.length, chord := none }]
  (⟨some ⟨g k⟩, some text, some bounds, some 0, some 1, some false, some false,
      some 0, some 0, some 0, some 0, some 0,
      some
        { attributes := some
            { customAttributes := customAttributes,
              font := some
                { name := fontName, size := fontSize, family := fontName,
                  italic := false, bold := false, face := [] },
              capitalization := some 0,
              underlineStyle := some 0, underlineColor := none,
              paragraphStyle := some 0, kerning := some 2, superscript := some 0,
              strikethroughStyle := some 0, strikethroughColor := none,
              strokeWidth := some (-6), strokeColor := some DEFAULT_STROKE_COLOR,
              backgroundColor := none, textSolidFill := some DEFAULT_TEXT_COLOR },
          shadow := some 0,
          rtfData := some rtfData,
          verticalAlignment := some 1,
          scaleBehavior := some 0,
          margins := some 0 }⟩,
    k + 1)

/-- `createSlide`: one text element on a black background; consumes two
uuids (element, then slide). -/
def createSlide (g : Nat → List Char) (k : Nat) (text : List Char)
    (opts : CreatePresentationOptions) (chords : Option (List ChordPosition)) :
    Slide × Nat :=
  let r := createTextElement g k text opts chords
  let slideElement : SlideElement :=
    { element := some r.1, buildIn := none, buildOut := none, dataLinks := [], childBuilds := [] }
  (⟨some [slideElement], some (opts.slideSize.getD DEFAULT_SLIDE_SIZE), some ⟨g r.2⟩,
      some { red := 0, green := 0, blue := 0, alpha := 1 }, some true⟩,
    r.2 + 1)

/-- `createCue`: wraps the slide in a `PresentationSlide`, an action of
type 11, and the cue; consumes four uuids in source order (element,
slide, action, cue). -/
def createCue (g : Nat → List Char) (k : Nat) (name : List Char) (slideText : List Char)
    (opts : CreatePresentationOptions) (chords : Option (List ChordPosition)) :
    Cue × Nat :=
  let r := createSlide g k slideText opts chords
  let presentationSlide : PresentationSlide :=
    { baseSlide := some r.1, notes := none, templateGuidelines := [], chordChart := none,
      transition := none }
  let action : Action :=
    { uuid := some ⟨g r.2⟩, name := some [], label := none, delayTime := some 0,
      oldType := none, isEnabled := some true, layerIdentification := none,
      duration := some 0, type := some 11,
      slide := some { presentation := some (.wrapped presentationSlide), prop := none } }
  (⟨some ⟨g (r.2 + 1)⟩, some name, some { code := 0, controlIdentifier := [] },
      some [action], some true⟩,
    r.2 + 2)

/-- The per-slide inner loop of `createPresentation`'s section loop:
creates one cue per slide, collecting the cues and their identifiers;
`i` is the 1-based slide number used in the cue name. -/
def buildSlidesLoop (g : Nat → List Char) (opts : CreatePresentationOptions)
    (secName : List Char) :
    Nat → Nat → List SlideInputU → List Cue × List UuidS × Nat
  | k, _, [] => ([], [], k)
  | k, i, si :: rest =>
    let cueName := secName ++ " - Slide ".toList ++ (Nat.repr i).toList
    let r := createCue g k cueName si.text opts si.chords
    let rr := buildSlidesLoop g opts secName r.2 (i + 1) rest
    (r.1 :: rr.1, (r.1.uuid.getD ⟨[]⟩) :: rr.2.1, rr.2.2)

/-- The per-section loop of `createPresentation`: returns the cues (in
creation order), the cue groups, the group identifiers, and the next
counter. `idx` is the running section index (used for the default
color). -/
def buildSections (g : Nat → List Char) (opts : CreatePresentationOptions) :
    Nat → Nat → List SectionInput → List Cue × List CueGroup × List UuidS × Nat
  | k, _, [] => ([], [], [], k)
  | k, idx, sec :: rest =>
    let groupUuid : UuidS := ⟨g k⟩
    let r := buildSlidesLoop g opts sec.name (k + 1) 1 sec.slides
    let color := sec.color.getD (DEFAULT_GROUP_COLORS.getD (idx % DEFAULT_GROUP_COLORS.length) {})
    let cueGroup : CueGroup :=
      { group := some
          { uuid := some groupUuid, name := some sec.name, color := some color,
            hotKey := some { code := 0, controlIdentifier := [] },
            applicationGroupIdentifier := none, applicationGroupName := some [] },
        cueIdentifiers := some r.2.1 }
    let rr := buildSections g opts r.2.2 (idx + 1) rest
    (r.1 ++ rr.1, cueGroup :: rr.2.1, groupUuid :: rr.2.2.1, rr.2.2.2)

/-- The 21-entry key-name lookup table. -/
def keyNames : List (List Char) :=
  ["Ab", "A", "A#", "Bb", "B", "B#", "Cb", "C", "C#", "Db", "D", "D#", "Eb", "E",
    "E#", "Fb", "F", "F#", "Gb", "G", "G#"].map String.toList

/-- `createPresentation`. -/
def createPresentation (g : Nat → List Char) (k : Nat)
    (opts : CreatePresentationOptions) : Presentation × Nat :=
  let r := buildSections g opts k 0 opts.sections
  let cues := r.1
  let cueGroups := r.2.1
  let groupIdentifiers := r.2.2.1
  let k1 := r.2.2.2
  let pres : Presentation :=
    { uuid := some ⟨g k1⟩, name := some opts.title,
      category := some (opts.category.getD []), notes := some (opts.notes.getD []),
      cues := some cues, cueGroups := some cueGroups }
  let k2 := k1 + 1
  let pres :=
    if truthyNat opts.ccliNumber || truthyStr opts.ccliAuthor || truthyStr opts.artist then
      { pres with
        ccli := some
          { songTitle := some opts.title,
            author := some (jsOrStr opts.ccliAuthor (jsOrStr opts.artist [])),
            artistCredits := some (opts.artist.getD []),
            publisher := some (jsOrStr opts.publisher []),
            copyrightYear := some (jsOrNat opts.copyrightYear 0),
            songNumber := some (jsOrNat opts.ccliNumber 0),
            display := some true, album := some [], artwork := some [] } }
    else pres
  let pres :=
    match opts.musicKey with
    | some mk =>
      let keyName := keyNames.getD mk.key []
      let scale := mk.scale.getD 0
      { pres with
        music := some
          { originalMusicKey := keyName, userMusicKey := keyName,
            original := { musicKey := mk.key, musicScale := scale },
            user := { musicKey := mk.key, musicScale := scale } } }
    | none => pres
  if opts.createArrangement != some false then
    let arr : Arrangement :=
      { uuid := some ⟨g k2⟩, name := "Default".toList,
        groupIdentifiers := groupIdentifiers }
    ({ pres with arrangements := some [arr], selectedArrangement := arr.uuid }, k2 + 1)
  else (pres, k2)

/-! ## The schema-driven binary message codec

`readPresentation` / `writePresentation` delegate the byte-level codec
to an external schema-driven library not contained in this repository.
Modelled from the spec: decoding parses the byte stream as a sequence
of tag/value pairs of the standard protobuf wire format (failing on a
malformed stream); fields whose numbers the schema describes become
named fields, fields whose numbers are absent from the schema are
retained in an explicit unrecognized-fields bucket as raw encoded
bytes; encoding serialises the named fields and re-emits the bucket
verbatim, byte-for-byte. A schema is modelled by the list of field
numbers it describes; bytes are `List Nat`. -/

/-- Base-128 varint encoding, fuelled (least-significant group first,
high bit marking continuation). A fuel of `n` always suffices. -/
def varintEncF : Nat → Nat → List Nat
  | 0, n => [n % 128]
  | fuel + 1, n => if n < 128 then [n] else (n % 128 + 128) :: varintEncF fuel (n / 128)

/-- Varint encoding with the canonical fuel. -/
def varintEnc (n : Nat) : List Nat :=
  varintEncF n n

/-- Varint decoding: returns the value and the remaining bytes. -/
def varintDec : List Nat → Option (Nat × List Nat)
  | [] => none
  | b :: rest =>
    if b < 128 then some (b, rest)
    else
      match varintDec rest with
      | some (n, r) => some (b - 128 + 128 * n, r)
      | none => none

/-- A wire-format value: varint, 64-bit, length-delimited, or 32-bit. -/
inductive WireValue where
  | vint (n : Nat)
  | fixed64 (bs : List Nat)
  | lenDelim (bs : List Nat)
  | fixed32 (bs : List Nat)
deriving DecidableEq

/-- Well-formedness of a wire value (the fixed-width payloads have
their exact width). -/
def wfWire : WireValue → Prop
  | .vint _ => True
  | .fixed64 bs => bs.length = 8
  | .lenDelim _ => True
  | .fixed32 bs => bs.length = 4

instance : DecidablePred wfWire := fun v => by
  cases v <;> simp only [wfWire] <;> infer_instance

/-- Encode one field: the tag varint (`fieldNumber * 8 + wireType`)
followed by the value's wire representation. -/
def encodeWire (f : Nat) : WireValue → List Nat
  | .vint n => varintEnc (f * 8 + 0) ++ varintEnc n
  | .fixed64 bs => varintEnc (f * 8 + 1) ++ bs
  | .lenDelim bs => varintEnc (f * 8 + 2) ++ varintEnc bs.length ++ bs
  | .fixed32 bs => varintEnc (f * 8 + 5) ++ bs

/-- Parse one tag/value pair; fails on a malformed stream (truncated
payload, reserved wire type, or field number 0). -/
def parseField (bs : List Nat) : Option ((Nat × WireValue) × List Nat) :=
  match varintDec bs with
  | none => none
  | some (t, r1) =>
    let f := t / 8
    if f = 0 then none
    else if t % 8 = 0 then
      match varintDec r1 with
      | some (n, r2) => some ((f, .vint n), r2)
      | none => none
    else if t % 8 = 1 then
      if 8 ≤ r1.length then some ((f, .fixed64 (r1.take 8)), r1.drop 8) else none
    else if t % 8 = 2 then
      match varintDec r1 with
      | some (len, r2) =>
        if len ≤ r2.length then some ((f, .lenDelim (r2.take len)), r2.drop len) else none
      | none => none
    else if t % 8 = 5 then
      if 4 ≤ r1.length then some ((f, .fixed32 (r1.take 4)), r1.drop 4) else none
    else none

/-- Parse a whole stream into its fields, keeping for each field the
raw bytes it was parsed from. Fuelled; the input length suffices. -/
def decodeFieldsF : Nat → List Nat → Option (List (Nat × WireValue × List Nat))
  | _, [] => some []
  | 0, _ :: _ => none
  | n + 1, b :: bs =>
    match parseField (b :: bs) with
    | none => none
    | some (fv, rest) =>
      match decodeFieldsF n rest with
      | none => none
      | some l =>
        some ((fv.1, fv.2, (b :: bs).take ((b :: bs).length - rest.length)) :: l)

/-- A decoded message: the schema-described fields, and the
unrecognized-fields bucket holding each unknown field's raw encoded
bytes. -/
structure Decoded where
  known : List (Nat × WireValue)
  unknown : List (Nat × List Nat)
deriving DecidableEq

/-- Decode a byte stream against a schema (the list of described field
numbers). -/
def decodeMessage (schema : List Nat) (bs : List Nat) : Option Decoded :=
  match decodeFieldsF bs.length bs with
  | none => none
  | some l =>
    some
      { known := l.filterMap fun x => if x.1 ∈ schema then some (x.1, x.2.1) else none,
        unknown := l.filterMap fun x => if x.1 ∈ schema then none else some (x.1, x.2.2) }

/-- Encode a decoded message: serialise the named fields, then re-emit
the unrecognized bucket byte-for-byte. -/
def encodeMessage (d : Decoded) : List Nat :=
  (d.known.map fun p => encodeWire p.1 p.2).flatten ++ (d.unknown.map fun p => p.2).flatten

/-! ## Theorems -/

/-- The example rich-text byte sequence of the spec. -/
def exampleRtfBytes : List Char :=
  "\x7b\\rtf1\\ansi\\deff0\x7b\\fonttbl\x7b\\f0 Arial;\x7d\x7d\\f0\\fs48 Hi\\par there\x7d".toList

/-- C7 (counterexample): decoding
`{\rtf1\ansi\deff0{\fonttbl{\f0 Arial;}}\f0\fs48 Hi\par there}` does
NOT yield `"Hi\nthere"`: the `\par` is first turned into a newline, but
the later whitespace-collapse stage (`\s+` → one space) folds that
newline and the following space into a single space. -/
theorem rtfToText_example_ne_spec : rtfToText exampleRtfBytes ≠ "Hi\nthere".toList := by
  decide

/-- C7 (amended): the example rich-text byte sequence decodes to
`"Hi there"` — the two words separated by a space, not a newline. -/
theorem rtfToText_example_eq : rtfToText exampleRtfBytes = "Hi there".toList := by
  decide

/-- C6 (counterexample): encoding a string containing a literal open
brace and decoding does not recover the brace. `textToRtf` escapes
`"a{b"` to `a\{b`, but `rtfToText`'s brace-removal stage strips the
brace while leaving the escaping backslash, yielding `"a\b"`. -/
theorem rtf_escape_brace_not_recovered :
    rtfToText (textToRtfD "a\x7bb".toList) ≠ "a\x7bb".toList := by
  decide

/-- C6 (amended): escape round-tripping is mangled by the decoder for
each of the three escaped characters: an escaped open or close brace
decodes to a lone backslash (the brace is dropped by brace removal, the
escaping backslash survives control-word stripping), and an escaped
backslash followed by a letter is mis-parsed as a control word,
swallowing the letter. -/
theorem rtf_escape_mangled :
    rtfToText (textToRtfD "a\x7bb".toList) = "a\\b".toList ∧
    rtfToText (textToRtfD "a\x7db".toList) = "a\\b".toList ∧
    rtfToText (textToRtfD "a\\b".toList) = "a\\".toList := by
  refine ⟨by decide, by decide, by decide⟩

/-- C2 (counterexample): on a cue whose first presentation slide has
two text elements (`"A"` and `"B"`), `getCueText` returns the
newline-join `"A\nB"` of all of them, not the decode `"A"` of the
first text-bearing element the spec describes. -/
theorem getCueText_not_first_element_only :
    getCueText cueAB = "A\nB".toList ∧ textOfSpec cueAB = "A".toList ∧
      getCueText cueAB ≠ textOfSpec cueAB := by
  refine ⟨by decide, by decide, by decide⟩

/-- `findPresSlide` as a `findSome?`. -/
theorem findPresSlide_eq (acts : List Action) :
    findPresSlide acts = acts.findSome? fun a => a.slide.bind fun sa => sa.presentation := by
  induction acts with
  | nil => rfl
  | cons a rest ih =>
    cases hs : a.slide with
    | none => simp [findPresSlide, List.findSome?_cons, hs, ih]
    | some sa =>
      cases hp : sa.presentation with
      | none => simp [findPresSlide, List.findSome?_cons, hs, hp, ih]
      | some p => simp [findPresSlide, List.findSome?_cons, hs, hp]

/-- `getSlideTextElements` as a `filterMap` composed with a
presence filter. -/
theorem getSlideTextElements_eq (sl : SlidePayload) :
    getSlideTextElements sl =
      ((payloadElements sl).filterMap fun se => se.element.bind fun ge => ge.text).filter
        fun te => te.rtfData.isSome := by
  unfold getSlideTextElements
  generalize payloadElements sl = es
  induction es with
  | nil => rfl
  | cons se t ih =>
    cases hse : se.element with
    | none => simpa [List.filterMap_cons, hse] using ih
    | some ge =>
      cases hte : ge.text with
      | none => simpa [List.filterMap_cons, hse, hte] using ih
      | some te =>
        cases hrd : te.rtfData.isSome <;>
          simp [List.filterMap_cons, List.filter_cons, hse, hte, hrd, ih]

/-- C2 (amended): `getCueText` returns the newline-join of the
non-empty rich-text decodes of ALL rtf-bearing elements of the first
action carrying a presentation slide, and the empty string when no
action carries a presentation slide (later actions are not consulted
even when the first presentation slide yields no text). -/
theorem getCueText_eq_textOfAmended (cue : Cue) : getCueText cue = textOfAmended cue := by
  simp only [getCueText, textOfAmended, getCueSlide, findPresSlide_eq, getSlideText,
    getSlideTextElements_eq]

/-- C3 (counterexample): two `CueGroup`s named `"Verse"` produce ONE
entry, not two: the JS `Map` is keyed by group name, so the second
group overwrites the first one's cue list while keeping the first
position. -/
theorem getCuesByGroup_dedups_names :
    (presDupNames.cueGroups.getD []).length = 2 ∧
      (getCuesByGroup presDupNames).length = 1 ∧
      getCuesByGroup presDupNames = [("Verse".toList, [cueB])] := by
  refine ⟨by decide, by decide, by decide⟩

/-- `jsMapSet` on a present key keeps the key list. -/
theorem jsMapSet_keys_mem {β : Type} (m : List (List Char × β)) (k : List Char) (v : β)
    (h : k ∈ m.map Prod.fst) : (jsMapSet m k v).map Prod.fst = m.map Prod.fst := by
  induction m with
  | nil => simp at h
  | cons p rest ih =>
    obtain ⟨k0, v0⟩ := p
    by_cases hk : k0 = k
    · simp [jsMapSet, hk]
    · have h2 : k ∈ rest.map Prod.fst := by
        simp only [List.map_cons, List.mem_cons] at h
        rcases h with h1 | h1
        · exact absurd h1.symm hk
        · exact h1
      simp [jsMapSet, hk, ih h2]

/-- `jsMapSet` on an absent key appends it. -/
theorem jsMapSet_keys_not_mem {β : Type} (m : List (List Char × β)) (k : List Char) (v : β)
    (h : ¬ k ∈ m.map Prod.fst) : (jsMapSet m k v).map Prod.fst = m.map Prod.fst ++ [k] := by
  induction m with
  | nil => simp [jsMapSet]
  | cons p rest ih =>
    obtain ⟨k0, v0⟩ := p
    simp only [List.map_cons, List.mem_cons] at h
    push_neg at h
    have hk : ¬ k0 = k := fun hh => h.1 hh.symm
    simp [jsMapSet, hk, ih h.2]

/-- Lookup after `jsMapSet`. -/
theorem jsMapGet_set {β : Type} (m : List (List Char × β)) (k n : List Char) (v : β) :
    jsMapGet (jsMapSet m k v) n = if n = k then some v else jsMapGet m n := by
  induction m with
  | nil =>
    by_cases h : n = k
    · simp [jsMapSet, jsMapGet, h]
    · have h2 : ¬ k = n := fun hh => h hh.symm
      simp [jsMapSet, jsMapGet, h, h2]
  | cons p rest ih =>
    obtain ⟨k0, v0⟩ := p
    by_cases hk : k0 = k
    · by_cases hn : n = k
      · subst hn
        simp [jsMapSet, jsMapGet, hk]
      · have h2 : ¬ k0 = n := fun hh => hn (hk ▸ hh).symm
        have h3 : ¬ k = n := fun hh => hn hh.symm
        simp [jsMapSet, jsMapGet, hk, hn, h2, h3]
    · by_cases h0 : k0 = n
      · have h2 : ¬ n = k := fun hh => hk (h0.symm ▸ hh)
        simp [jsMapSet, jsMapGet, hk, h0, h2]
      · simp [jsMapSet, jsMapGet, hk, h0, ih]

/-- The keys accumulated by the `getCuesByGroup` fold are the
first-occurrence dedup of the effective group names. -/
theorem foldl_group_keys (cueMap : List (List Char × Cue)) (gs : List CueGroup)
    (acc : List (List Char × List Cue)) :
    ((gs.foldl (fun result g =>
        jsMapSet result (effGroupName g) (resolveIds cueMap (g.cueIdentifiers.getD []))) acc).map
      Prod.fst) =
    (gs.map effGroupName).foldl (fun ks n => if n ∈ ks then ks else ks ++ [n])
      (acc.map Prod.fst) := by
  induction gs generalizing acc with
  | nil => rfl
  | cons g gs ih =>
    simp only [List.foldl_cons, List.map_cons]
    rw [ih]
    congr 1
    by_cases hm : effGroupName g ∈ acc.map Prod.fst
    · rw [jsMapSet_keys_mem _ _ _ hm, if_pos hm]
    · rw [jsMapSet_keys_not_mem _ _ _ hm, if_neg hm]

/-- Lookup in the `getCuesByGroup` fold: the value of a name is the
resolution of the LAST group bearing it. -/
theorem foldl_group_get (cueMap : List (List Char × Cue)) (gs : List CueGroup)
    (acc : List (List Char × List Cue)) (n : List Char) :
    jsMapGet (gs.foldl (fun result g =>
        jsMapSet result (effGroupName g) (resolveIds cueMap (g.cueIdentifiers.getD []))) acc) n =
      (match lastWithName n gs with
       | some g => some (resolveIds cueMap (g.cueIdentifiers.getD []))
       | none => jsMapGet acc n) := by
  induction gs generalizing acc with
  | nil => rfl
  | cons g gs ih =>
    simp only [List.foldl_cons, lastWithName]
    rw [ih]
    cases lastWithName n gs with
    | some g2 => rfl
    | none =>
      rw [jsMapGet_set]
      by_cases h : n = effGroupName g
      · rw [if_pos h, if_pos h.symm]
      · rw [if_neg h, if_neg (fun hh => h hh.symm)]

/-- C3 (amended): `getCuesByGroup` returns an insertion-ordered map
with ONE entry per distinct effective group name (a missing or empty
name reads `"Unnamed"`), positioned at the name's first occurrence in
document order; the entry's cue list is the resolution of the LAST
CueGroup bearing that name, so duplicate names are deduplicated with
last-occurrence-wins contents rather than producing two entries. -/
theorem getCuesByGroup_characterization (p : Presentation) :
    (getCuesByGroup p).map Prod.fst = dedupFirst ((p.cueGroups.getD []).map effGroupName) ∧
    ∀ n, jsMapGet (getCuesByGroup p) n =
      (lastWithName n (p.cueGroups.getD [])).map fun g =>
        resolveIds (buildCueMap (p.cues.getD [])) (g.cueIdentifiers.getD []) := by
  constructor
  · simpa [getCuesByGroup, dedupFirst] using
      foldl_group_keys (buildCueMap (p.cues.getD [])) (p.cueGroups.getD []) []
  · intro n
    have h := foldl_group_get (buildCueMap (p.cues.getD [])) (p.cueGroups.getD []) [] n
    simp only [getCuesByGroup]
    rw [h]
    cases lastWithName n (p.cueGroups.getD []) <;> simp [jsMapGet]

/-- A failed `setElementsText` leaves the element list unchanged. -/
theorem setElementsText_false (es : List SlideElement) (t : List Char)
    (h : (setElementsText es t).1 = false) : (setElementsText es t).2 = es := by
  induction es with
  | nil => rfl
  | cons se rest ih =>
    cases hse : se.element with
    | none =>
      simp only [setElementsText, hse] at h ⊢
      rw [ih h]
    | some ge =>
      cases hte : ge.text with
      | none =>
        simp only [setElementsText, hse, hte] at h ⊢
        rw [ih h]
      | some te =>
        cases hrd : te.rtfData.isSome with
        | true => simp [setElementsText, hse, hte, hrd] at h
        | false =>
          simp only [setElementsText, hse, hte, hrd, Bool.false_eq_true, if_false] at h ⊢
          rw [ih h]

/-- A failed `setSlideText` leaves the payload unchanged. -/
theorem setSlideText_false (sl : SlidePayload) (t : List Char)
    (h : (setSlideText sl t).1 = false) : (setSlideText sl t).2 = sl := by
  cases sl with
  | wrapped p => rfl
  | plain s =>
    obtain ⟨els, sz, u, bg, dbg⟩ := s
    cases els with
    | none => rfl
    | some es =>
      simp only [setSlideText] at h ⊢
      rw [setElementsText_false es t h]

/-- A failed `setActionsText` leaves the action list unchanged. -/
theorem setActionsText_false (acts : List Action) (t : List Char)
    (h : (setActionsText acts t).1 = false) : (setActionsText acts t).2 = acts := by
  induction acts with
  | nil => rfl
  | cons a rest ih =>
    cases hs : a.slide with
    | none =>
      simp only [setActionsText, hs] at h ⊢
      rw [ih h]
    | some sa =>
      cases hp : sa.presentation with
      | none =>
        simp only [setActionsText, hs, hp] at h ⊢
        rw [ih h]
      | some p =>
        simp only [setActionsText, hs, hp] at h ⊢
        rw [setSlideText_false p t h, ← hp]
        show ({ a with slide := some sa } : Action) :: rest = a :: rest
        rw [← hs]

/-- C8: the not-found outcomes are ordinary values and leave state
untouched: a failed `setCueText` (no text-bearing element) returns the
cue unmodified, and dangling `CueGroup` identifiers contribute nothing
to `getCuesByGroup` — deleting every dangling identifier from every
group leaves the result unchanged (so resolution is neither aborted
nor corrupted by a dangling reference). -/
theorem notFound_outcomes :
    (∀ (cue : Cue) (t : List Char),
        (setCueText cue t).1 = false → (setCueText cue t).2 = cue) ∧
    ∀ p : Presentation, getCuesByGroup (pruneDangling p) = getCuesByGroup p := by
  constructor
  · intro cue t h
    obtain ⟨u, nm, hk, acts, en⟩ := cue
    cases acts with
    | none => rfl
    | some l =>
      simp only [setCueText] at h ⊢
      rw [setActionsText_false l t h]
  · intro p
    set m := buildCueMap (p.cues.getD []) with hm
    have hres : ∀ ids, resolveIds m (pruneIds m ids) = resolveIds m ids := by
      intro ids
      simp only [resolveIds, pruneIds]
      induction ids with
      | nil => rfl
      | cons i rest ih =>
        cases h : jsMapGet m i.string with
        | none => simp [List.filter_cons, List.filterMap_cons, h, ih]
        | some cdum => simp [List.filter_cons, List.filterMap_cons, h, ih]
    have hcues : (pruneDangling p).cues = p.cues := rfl
    have hgroups : (pruneDangling p).cueGroups.getD [] =
        (p.cueGroups.getD []).map fun g =>
          { g with cueIdentifiers := some (pruneIds m (g.cueIdentifiers.getD [])) } := rfl
    simp only [getCuesByGroup, hcues, hgroups, ← hm, List.foldl_map]
    apply List.foldl_ext
    intro acc g _
    obtain ⟨grp, ids⟩ := g
    show jsMapSet acc (effGroupName ⟨grp, ids⟩)
        (resolveIds m (pruneIds m (ids.getD []))) = _
    rw [hres]

/-- C8 (witness): the failure frame at a concrete text-less cue, and
prune-invariance at a concrete presentation with a dangling group
reference. -/
theorem notFound_outcomes_witness :
    (setCueText cueNoText "x".toList).1 = false ∧
      (setCueText cueNoText "x".toList).2 = cueNoText ∧
      getCuesByGroup (pruneDangling presDangling) = getCuesByGroup presDangling :=
  ⟨by decide, notFound_outcomes.1 cueNoText "x".toList (by decide),
    notFound_outcomes.2 presDangling⟩

/-- C4 (counterexample): `setCueText` succeeds on a cue whose slide
has two text elements, but reading back with `getCueText` yields the
join `"New\nB"`, not the written text `"New"`. -/
theorem setCueText_readback_ne :
    (setCueText cueAB "New".toList).1 = true ∧
      getCueText (setCueText cueAB "New".toList).2 ≠ "New".toList := by
  refine ⟨by decide, by decide⟩

/-- A successful `setElementsText` replaces exactly the first
rtf-bearing element's bytes and nothing else. -/
theorem setElementsText_true (es : List SlideElement) (t : List Char)
    (h : (setElementsText es t).1 = true) :
    firstRtfInElements (setElementsText es t).2 = some (textToRtfD t) ∧
      clearElementsRtf (setElementsText es t).2 = clearElementsRtf es ∧
      (setElementsText es t).2.length = es.length := by
  induction es with
  | nil => simp [setElementsText] at h
  | cons se rest ih =>
    cases hse : se.element with
    | none =>
      simp only [setElementsText, hse] at h ⊢
      obtain ⟨h1, h2, h3⟩ := ih h
      exact ⟨by simpa [firstRtfInElements, hse] using h1,
        by simp [clearElementsRtf, hse, h2], by simp [h3]⟩
    | some ge =>
      cases hte : ge.text with
      | none =>
        simp only [setElementsText, hse, hte] at h ⊢
        obtain ⟨h1, h2, h3⟩ := ih h
        exact ⟨by simpa [firstRtfInElements, hse, hte] using h1,
          by simp [clearElementsRtf, hse, hte, h2], by simp [h3]⟩
      | some te =>
        cases hrd : te.rtfData.isSome with
        | false =>
          have hrdn : te.rtfData = none := Option.not_isSome_iff_eq_none.mp (by simp [hrd])
          simp only [setElementsText, hse, hte, hrd, Bool.false_eq_true, if_false] at h ⊢
          obtain ⟨h1, h2, h3⟩ := ih h
          exact ⟨by simpa [firstRtfInElements, hse, hte, hrdn] using h1,
            by simp [clearElementsRtf, hse, hte, hrd, h2], by simp [h3]⟩
        | true =>
          simp only [setElementsText, hse, hte, hrd, if_true]
          refine ⟨by simp [firstRtfInElements], ?_, by simp⟩
          simp [clearElementsRtf, hse, hte, hrd]

/-- A successful `setSlideText` replaces exactly the first rtf-bearing
element's bytes of the payload. -/
theorem setSlideText_true (sl : SlidePayload) (t : List Char)
    (h : (setSlideText sl t).1 = true) :
    firstRtfInElements (payloadElements (setSlideText sl t).2) = some (textToRtfD t) ∧
      clearPayloadRtf (setSlideText sl t).2 = clearPayloadRtf sl ∧
      (payloadElements (setSlideText sl t).2).length = (payloadElements sl).length := by
  cases sl with
  | wrapped p => simp [setSlideText] at h
  | plain s =>
    cases hels : s.elements with
    | none => simp [setSlideText, hels] at h
    | some es =>
      simp only [setSlideText, hels] at h ⊢
      obtain ⟨h1, h2, h3⟩ := setElementsText_true es t h
      refine ⟨by simpa [payloadElements] using h1, ?_, by simpa [payloadElements, hels] using h3⟩
      simp [clearPayloadRtf, hels, h2]

/-- A successful `setActionsText` replaces exactly the first
rtf-bearing element's bytes of the first presentation slide. -/
theorem setActionsText_true (acts : List Action) (t : List Char)
    (h : (setActionsText acts t).1 = true) :
    (match findPresSlide (setActionsText acts t).2 with
      | some sl => firstRtfInElements (payloadElements sl)
      | none => none) = some (textToRtfD t) ∧
      clearActionsRtf (setActionsText acts t).2 = clearActionsRtf acts ∧
      (setActionsText acts t).2.map actionElemCount = acts.map actionElemCount := by
  induction acts with
  | nil => simp [setActionsText] at h
  | cons a rest ih =>
    cases hs : a.slide with
    | none =>
      simp only [setActionsText, hs] at h ⊢
      obtain ⟨h1, h2, h3⟩ := ih h
      exact ⟨by simpa [findPresSlide, hs] using h1,
        by simp [clearActionsRtf, hs, h2], by simp [h3]⟩
    | some sa =>
      cases hp : sa.presentation with
      | none =>
        simp only [setActionsText, hs, hp] at h ⊢
        obtain ⟨h1, h2, h3⟩ := ih h
        exact ⟨by simpa [findPresSlide, hs, hp] using h1,
          by simp [clearActionsRtf, hs, hp, h2], by simp [h3]⟩
      | some p =>
        simp only [setActionsText, hs, hp] at h ⊢
        obtain ⟨h1, h2, h3⟩ := setSlideText_true p t h
        refine ⟨by simpa [findPresSlide] using h1, ?_, ?_⟩
        · simp [clearActionsRtf, hs, hp, h2]
        · simp [actionElemCount, h3, hs, hp]

/-- C4 (amended): when `setCueText(cue, t)` succeeds, the first
rtf-bearing element of the cue's first presentation slide carries
exactly the bytes `textToRtf(t)` afterwards, and nothing else changes:
erasing that one byte field from the updated cue and from the original
cue gives identical cues (so element count, ordering, and every other
attribute are preserved), and the per-action element counts are
unchanged. (The original claim's read-back `getCueText cue' = t` fails
in general — see the counterexample — because `getCueText` joins ALL
text elements and the rich-text round-trip is lossy.) -/
theorem setCueText_frame (cue : Cue) (t : List Char)
    (h : (setCueText cue t).1 = true) :
    firstRtfData (setCueText cue t).2 = some (textToRtfD t) ∧
      clearFirstRtfData (setCueText cue t).2 = clearFirstRtfData cue ∧
      elemCountsOfCue (setCueText cue t).2 = elemCountsOfCue cue ∧
      ((setCueText cue t).2.actions.getD []).length = (cue.actions.getD []).length := by
  cases hacts : cue.actions with
  | none => simp [setCueText, hacts] at h
  | some acts =>
    simp only [setCueText, hacts] at h ⊢
    obtain ⟨h1, h2, h3⟩ := setActionsText_true acts t h
    refine ⟨?_, ?_, ?_, ?_⟩
    · simpa [firstRtfData, getCueSlide] using h1
    · simp [clearFirstRtfData, hacts, h2]
    · simpa [elemCountsOfCue, hacts] using h3
    · simpa using congrArg List.length h3

/-- C4 (witness): the frame theorem applied at a concrete
single-text-element cue. -/
theorem setCueText_frame_witness :
    (setCueText cueB "Hi".toList).1 = true ∧
      firstRtfData (setCueText cueB "Hi".toList).2 = some (textToRtfD "Hi".toList) ∧
      clearFirstRtfData (setCueText cueB "Hi".toList).2 = clearFirstRtfData cueB :=
  ⟨by decide, (setCueText_frame cueB "Hi".toList (by decide)).1,
    (setCueText_frame cueB "Hi".toList (by decide)).2.1⟩

/-- The slide loop of `createPresentation`: the collected identifiers
are exactly the created cues' uuids, in order, and one cue is created
per slide. -/
theorem buildSlidesLoop_spec (g : Nat → List Char) (opts : CreatePresentationOptions)
    (secName : List Char) :
    ∀ (sls : List SlideInputU) (k i : Nat),
      (buildSlidesLoop g opts secName k i sls).2.1 =
        (buildSlidesLoop g opts secName k i sls).1.filterMap (fun c => c.uuid) ∧
      (buildSlidesLoop g opts secName k i sls).1.length = sls.length ∧
      (buildSlidesLoop g opts secName k i sls).2.1.length = sls.length := by
  intro sls
  induction sls with
  | nil => intro k i; exact ⟨rfl, rfl, rfl⟩
  | cons si rest ih =>
    intro k i
    have hu : (createCue g k (secName ++ " - Slide ".toList ++ (Nat.repr i).toList)
        si.text opts si.chords).1.uuid =
        some ⟨g ((createSlide g k si.text opts si.chords).2 + 1)⟩ := rfl
    obtain ⟨ih1, ih2, ih3⟩ :=
      ih (createCue g k (secName ++ " - Slide ".toList ++ (Nat.repr i).toList)
        si.text opts si.chords).2 (i + 1)
    refine ⟨?_, ?_, ?_⟩
    · simp only [buildSlidesLoop, List.filterMap_cons, hu]
      simpa [hu] using ih1
    · simp only [buildSlidesLoop, List.length_cons]
      simpa using ih2
    · simp only [buildSlidesLoop, List.length_cons]
      simpa using ih3

/-- The section loop of `createPresentation`: group count, identifier
lists, and cue counts all line up with the input sections. -/
theorem buildSections_spec (g : Nat → List Char) (opts : CreatePresentationOptions) :
    ∀ (secs : List SectionInput) (k idx : Nat),
      (buildSections g opts k idx secs).2.1.length = secs.length ∧
      ((buildSections g opts k idx secs).2.1.map fun gr => gr.cueIdentifiers.getD []).flatten =
        (buildSections g opts k idx secs).1.filterMap (fun c => c.uuid) ∧
      (buildSections g opts k idx secs).1.length =
        (secs.map fun s => s.slides.length).sum ∧
      List.Forall₂ (fun gr sec => (gr.cueIdentifiers.getD []).length = sec.slides.length)
        (buildSections g opts k idx secs).2.1 secs := by
  intro secs
  induction secs with
  | nil => intro k idx; exact ⟨rfl, rfl, rfl, List.Forall₂.nil⟩
  | cons sec rest ih =>
    intro k idx
    obtain ⟨sl1, sl2, sl3⟩ := buildSlidesLoop_spec g opts sec.name sec.slides (k + 1) 1
    obtain ⟨ih1, ih2, ih3, ih4⟩ :=
      ih (buildSlidesLoop g opts sec.name (k + 1) 1 sec.slides).2.2 (idx + 1)
    refine ⟨?_, ?_, ?_, ?_⟩
    · simp only [buildSections, List.length_cons]
      simpa using ih1
    · simp only [buildSections, List.map_cons, List.flatten_cons, List.filterMap_append]
      rw [ih2]
      simp only [Option.getD_some]
      rw [sl1]
    · simp only [buildSections, List.length_append, List.map_cons, List.sum_cons]
      rw [sl2, ih3]
    · simp only [buildSections]
      exact List.Forall₂.cons (by simpa using sl3) ih4

/-- The cue list of a created presentation is the section loop's cue
list (the CCLI / music / arrangement decorations touch other fields). -/
theorem createPresentation_cues (g : Nat → List Char) (k : Nat)
    (opts : CreatePresentationOptions) :
    (createPresentation g k opts).1.cues = some (buildSections g opts k 0 opts.sections).1 := by
  simp only [createPresentation]
  repeat' split
  all_goals rfl

/-- The cue-group list of a created presentation is the section loop's
group list. -/
theorem createPresentation_cueGroups (g : Nat → List Char) (k : Nat)
    (opts : CreatePresentationOptions) :
    (createPresentation g k opts).1.cueGroups =
      some (buildSections g opts k 0 opts.sections).2.1 := by
  simp only [createPresentation]
  repeat' split
  all_goals rfl

/-- C10: a presentation built by `createPresentation` has no dangling
group references: there is one `CueGroup` per section; the
concatenation of the groups' identifier lists equals, in order, the
uuid tokens of the created cues; each group's identifier count equals
its section's slide count; the total number of cues equals the total
number of slides; and every referenced identifier is the uuid of some
cue in the presentation's cue list. -/
theorem createPresentation_invariants (g : Nat → List Char) (k : Nat)
    (opts : CreatePresentationOptions) :
    (((createPresentation g k opts).1.cueGroups.getD []).length = opts.sections.length) ∧
    ((((createPresentation g k opts).1.cueGroups.getD []).map fun gr =>
        gr.cueIdentifiers.getD []).flatten =
      ((createPresentation g k opts).1.cues.getD []).filterMap fun c => c.uuid) ∧
    (((createPresentation g k opts).1.cues.getD []).length =
      (opts.sections.map fun s => s.slides.length).sum) ∧
    List.Forall₂ (fun gr sec => (gr.cueIdentifiers.getD []).length = sec.slides.length)
      ((createPresentation g k opts).1.cueGroups.getD []) opts.sections ∧
    ∀ u ∈ (((createPresentation g k opts).1.cueGroups.getD []).map fun gr =>
        gr.cueIdentifiers.getD []).flatten,
      ∃ c ∈ (createPresentation g k opts).1.cues.getD [], c.uuid = some u := by
  obtain ⟨h1, h2, h3, h4⟩ := buildSections_spec g opts opts.sections k 0
  rw [createPresentation_cues, createPresentation_cueGroups]
  simp only [Option.getD_some]
  refine ⟨h1, h2, h3, h4, ?_⟩
  intro u hu
  rw [h2] at hu
  obtain ⟨c, hc, hcu⟩ := List.mem_filterMap.mp hu
  exact ⟨c, hc, hcu⟩

/-! ## Fuel sufficiency and scanning equations for the RTF stages -/

/-- `dropWhile` never lengthens a list. -/
theorem dropWhile_length {α : Type} (p : α → Bool) (l : List α) :
    (l.dropWhile p).length ≤ l.length := by
  induction l with
  | nil => simp
  | cons a t ih =>
    by_cases h : p a
    · simp only [List.dropWhile_cons, h, if_true]
      exact Nat.le_succ_of_le ih
    · simp [List.dropWhile_cons, h]

/-- `afterLetters` never lengthens a list. -/
theorem afterLetters_length (l : List Char) : (afterLetters l).length ≤ l.length := by
  unfold afterLetters
  have h2 : (if l.head? = some '-' then l.tail else l).length ≤ l.length := by
    by_cases h : l.head? = some '-' <;> simp [h, List.length_tail]
  have h4 : ((if l.head? = some '-' then l.tail else l).dropWhile isDigitC).length ≤ l.length :=
    le_trans (dropWhile_length isDigitC _) h2
  rcases hr : (if l.head? = some '-' then l.tail else l).dropWhile isDigitC with _ | ⟨d, t2⟩
  · simp [hr]
  · rw [hr] at h4
    by_cases hd : isJsSpace d
    · simp only [hr, hd, if_true]
      exact Nat.le_of_succ_le h4
    · simp only [hr, hd, Bool.false_eq_true, if_false]
      exact h4

/-- A successful `splitAtBrace` strictly shrinks the remainder. -/
theorem splitAtBrace_length (l a b : List Char) (h : splitAtBrace l = some (a, b)) :
    b.length < l.length := by
  induction l generalizing a b with
  | nil => simp [splitAtBrace] at h
  | cons c t ih =>
    by_cases hc : c = '\x7d'
    · simp only [splitAtBrace, hc, if_true, Option.some.injEq, Prod.mk.injEq] at h
      rw [← h.2]
      simp [Nat.lt_succ_of_le]
    · simp only [splitAtBrace, hc, if_false] at h
      rcases hs : splitAtBrace t with _ | ⟨a2, b2⟩
      · rw [hs] at h; simp at h
      · rw [hs] at h
        simp only [Option.some.injEq, Prod.mk.injEq] at h
        have := ih a2 b2 hs
        rw [← h.2]
        exact Nat.lt_succ_of_lt this

/-- Fuel irrelevance for `removeBlockFO`: any fuel at least the input
length gives the same result. -/
theorem removeBlockFO_irrel (pat : List Char) :
    ∀ n m (l : List Char), l.length ≤ n → l.length ≤ m →
      removeBlockFO pat n l = removeBlockFO pat m l := by
  intro n
  induction n with
  | zero =>
    intro m l hn _
    rcases l with _ | ⟨c, r⟩
    · cases m <;> rfl
    · simp at hn
  | succ n ih =>
    intro m l hn hm
    rcases l with _ | ⟨c, r⟩
    · cases m <;> rfl
    · rcases m with _ | m
      · simp at hm
      · simp only [List.length_cons, Nat.add_le_add_iff_right] at hn hm
        simp only [removeBlockFO]
        by_cases hc : (c = '\x7b' && pat.isPrefixOf r) = true
        · rw [hc]
          simp only [if_true]
          rcases hs : splitAtBrace (r.drop pat.length) with _ | ⟨a, after⟩
          · dsimp only
            rw [ih m r hn hm]
          · dsimp only
            have h1 := splitAtBrace_length _ a after hs
            have h2 : (r.drop pat.length).length ≤ r.length := by
              simp [List.length_drop]
            have h3 : after.length ≤ r.length := Nat.le_of_lt (lt_of_lt_of_le h1 h2)
            rw [ih m after (le_trans h3 hn) (le_trans h3 hm)]
        · simp only [Bool.not_eq_true] at hc
          rw [hc]
          simp only [Bool.false_eq_true, if_false]
          rw [ih m r hn hm]

/-- Fuel sufficiency for `removeBlockFO`. -/
theorem removeBlockFO_some (pat : List Char) :
    ∀ n (l : List Char), l.length ≤ n → (removeBlockFO pat n l).isSome := by
  intro n
  induction n with
  | zero =>
    intro l hn
    rcases l with _ | ⟨c, r⟩
    · rfl
    · simp at hn
  | succ n ih =>
    intro l hn
    rcases l with _ | ⟨c, r⟩
    · rfl
    · simp only [List.length_cons, Nat.add_le_add_iff_right] at hn
      simp only [removeBlockFO]
      by_cases hc : (c = '\x7b' && pat.isPrefixOf r) = true
      · rw [hc]
        simp only [if_true]
        rcases hs : splitAtBrace (r.drop pat.length) with _ | ⟨a, after⟩
        · dsimp only
          simpa using ih r hn
        · dsimp only
          have h1 := splitAtBrace_length _ a after hs
          have h2 : (r.drop pat.length).length ≤ r.length := by simp [List.length_drop]
          exact ih after (le_trans (Nat.le_of_lt (lt_of_lt_of_le h1 h2)) hn)
      · simp only [Bool.not_eq_true] at hc
        rw [hc]
        simp only [Bool.false_eq_true, if_false]
        simpa using ih r hn

/-- Fuel irrelevance for `stripCWO`. -/
theorem stripCWO_irrel :
    ∀ n m (l : List Char), l.length ≤ n → l.length ≤ m → stripCWO n l = stripCWO m l := by
  intro n
  induction n with
  | zero =>
    intro m l hn _
    rcases l with _ | ⟨c, r⟩
    · cases m <;> rfl
    · simp at hn
  | succ n ih =>
    intro m l hn hm
    rcases l with _ | ⟨c, r⟩
    · cases m <;> rfl
    · rcases m with _ | m
      · simp at hm
      · simp only [List.length_cons, Nat.add_le_add_iff_right] at hn hm
        simp only [stripCWO]
        by_cases hbs : c = '\\'
        · rw [if_pos hbs, if_pos hbs]
          rcases r with _ | ⟨d, r2⟩
          · rfl
          · dsimp only
            simp only [List.length_cons] at hn hm
            by_cases hd : isAsciiLetter d = true
            · rw [hd]
              simp only [if_true]
              have h1 : (afterLetters (r2.dropWhile isAsciiLetter)).length ≤ r2.length :=
                le_trans (afterLetters_length _) (dropWhile_length _ _)
              exact ih m _ (le_trans h1 (by omega)) (le_trans h1 (by omega))
            · simp only [Bool.not_eq_true] at hd
              rw [hd]
              simp only [Bool.false_eq_true, if_false]
              rw [ih m (d :: r2) (by simp; omega) (by simp; omega)]
        · rw [if_neg hbs, if_neg hbs, ih m r hn hm]

/-- Fuel sufficiency for `stripCWO`. -/
theorem stripCWO_some :
    ∀ n (l : List Char), l.length ≤ n → (stripCWO n l).isSome := by
  intro n
  induction n with
  | zero =>
    intro l hn
    rcases l with _ | ⟨c, r⟩
    · rfl
    · simp at hn
  | succ n ih =>
    intro l hn
    rcases l with _ | ⟨c, r⟩
    · rfl
    · simp only [List.length_cons, Nat.add_le_add_iff_right] at hn
      simp only [stripCWO]
      by_cases hbs : c = '\\'
      · rw [if_pos hbs]
        rcases r with _ | ⟨d, r2⟩
        · rfl
        · dsimp only
          simp only [List.length_cons] at hn
          by_cases hd : isAsciiLetter d = true
          · rw [hd]
            simp only [if_true]
            have h1 : (afterLetters (r2.dropWhile isAsciiLetter)).length ≤ r2.length :=
              le_trans (afterLetters_length _) (dropWhile_length _ _)
            exact ih _ (le_trans h1 (by omega))
          · simp only [Bool.not_eq_true] at hd
            rw [hd]
            simp only [Bool.false_eq_true, if_false]
            simpa using ih (d :: r2) (by simp; omega)
      · rw [if_neg hbs]
        simpa using ih r hn

/-- Fuel irrelevance for `collapseWSO`. -/
theorem collapseWSO_irrel :
    ∀ n m (l : List Char), l.length ≤ n → l.length ≤ m → collapseWSO n l = collapseWSO m l := by
  intro n
  induction n with
  | zero =>
    intro m l hn _
    rcases l with _ | ⟨c, r⟩
    · cases m <;> rfl
    · simp at hn
  | succ n ih =>
    intro m l hn hm
    rcases l with _ | ⟨c, r⟩
    · cases m <;> rfl
    · rcases m with _ | m
      · simp at hm
      · simp only [List.length_cons, Nat.add_le_add_iff_right] at hn hm
        simp only [collapseWSO]
        by_cases hws : isJsSpace c = true
        · rw [hws]
          simp only [if_true]
          have h1 : (r.dropWhile isJsSpace).length ≤ r.length := dropWhile_length _ _
          rw [ih m _ (le_trans h1 hn) (le_trans h1 hm)]
        · simp only [Bool.not_eq_true] at hws
          rw [hws]
          simp only [Bool.false_eq_true, if_false]
          rw [ih m r hn hm]

/-- Fuel sufficiency for `collapseWSO`. -/
theorem collapseWSO_some :
    ∀ n (l : List Char), l.length ≤ n → (collapseWSO n l).isSome := by
  intro n
  induction n with
  | zero =>
    intro l hn
    rcases l with _ | ⟨c, r⟩
    · rfl
    · simp at hn
  | succ n ih =>
    intro l hn
    rcases l with _ | ⟨c, r⟩
    · rfl
    · simp only [List.length_cons, Nat.add_le_add_iff_right] at hn
      simp only [collapseWSO]
      by_cases hws : isJsSpace c = true
      · rw [hws]
        simp only [if_true]
        have h1 : (r.dropWhile isJsSpace).length ≤ r.length := dropWhile_length _ _
        simpa using ih _ (le_trans h1 hn)
      · simp only [Bool.not_eq_true] at hws
        rw [hws]
        simp only [Bool.false_eq_true, if_false]
        simpa using ih r hn

/-- `removeBlock` passes over a character that does not open a matched
block. -/
theorem removeBlock_cons (pat : List Char) (c : Char) (l : List Char)
    (h : (c = '\x7b' && pat.isPrefixOf l) = false) :
    removeBlock pat (c :: l) = c :: removeBlock pat l := by
  unfold removeBlock
  simp only [List.length_cons, removeBlockFO, h, Bool.false_eq_true, if_false]
  have hs := removeBlockFO_some pat l.length l (le_refl _)
  rcases ho : removeBlockFO pat l.length l with _ | t
  · rw [ho] at hs; simp at hs
  · simp [ho]

/-- `stripCW` passes over a non-backslash character. -/
theorem stripCW_cons (c : Char) (l : List Char) (h : ¬ c = '\\') :
    stripCW (c :: l) = c :: stripCW l := by
  unfold stripCW
  simp only [List.length_cons, stripCWO, if_neg h]
  have hs := stripCWO_some l.length l (le_refl _)
  rcases ho : stripCWO l.length l with _ | t
  · rw [ho] at hs; simp at hs
  · simp [ho]

/-- `stripCW` on a backslash followed by a letter consumes the whole
control word. -/
theorem stripCW_bs (d : Char) (r : List Char) (hd : isAsciiLetter d = true) :
    stripCW ('\\' :: d :: r) = stripCW (afterLetters (r.dropWhile isAsciiLetter)) := by
  unfold stripCW
  simp only [List.length_cons, stripCWO, if_pos rfl]
  rw [hd]
  simp only [if_true]
  have hlen : (afterLetters (r.dropWhile isAsciiLetter)).length ≤ r.length + 1 :=
    le_trans (le_trans (afterLetters_length _) (dropWhile_length _ _)) (Nat.le_succ _)
  rw [stripCWO_irrel (r.length + 1) (afterLetters (r.dropWhile isAsciiLetter)).length
    (afterLetters (r.dropWhile isAsciiLetter)) hlen (le_refl _)]
  have hs := stripCWO_some (afterLetters (r.dropWhile isAsciiLetter)).length
    (afterLetters (r.dropWhile isAsciiLetter)) (le_refl _)
  rcases ho : stripCWO (afterLetters (r.dropWhile isAsciiLetter)).length
    (afterLetters (r.dropWhile isAsciiLetter)) with _ | t
  · rw [ho] at hs; simp at hs
  · simp [ho]

/-- `collapseWS` passes over a non-whitespace character. -/
theorem collapseWS_cons_nws (c : Char) (l : List Char) (h : isJsSpace c = false) :
    collapseWS (c :: l) = c :: collapseWS l := by
  unfold collapseWS
  simp only [List.length_cons, collapseWSO, h, Bool.false_eq_true, if_false]
  have hs := collapseWSO_some l.length l (le_refl _)
  rcases ho : collapseWSO l.length l with _ | t
  · rw [ho] at hs; simp at hs
  · simp [ho]

/-- `collapseWS` folds a whitespace run into one space. -/
theorem collapseWS_cons_ws (c : Char) (l : List Char) (h : isJsSpace c = true) :
    collapseWS (c :: l) = ' ' :: collapseWS (l.dropWhile isJsSpace) := by
  unfold collapseWS
  simp only [List.length_cons, collapseWSO, h, if_true]
  rw [collapseWSO_irrel l.length (l.dropWhile isJsSpace).length
    (l.dropWhile isJsSpace) (dropWhile_length _ _) (le_refl _)]
  have hs := collapseWSO_some (l.dropWhile isJsSpace).length (l.dropWhile isJsSpace) (le_refl _)
  rcases ho : collapseWSO (l.dropWhile isJsSpace).length (l.dropWhile isJsSpace) with _ | t
  · rw [ho] at hs; simp at hs
  · simp [ho]

/-- `replacePar` passes over a non-backslash character. -/
theorem replacePar_cons (c : Char) (l : List Char) (h : c ≠ '\\') :
    replacePar (c :: l) = c :: replacePar l := by
  rcases l with _ | ⟨d, _ | ⟨e, _ | ⟨f, r⟩⟩⟩ <;> simp [replacePar, h]

/-- `replaceLine` passes over a non-backslash character. -/
theorem replaceLine_cons (c : Char) (l : List Char) (h : c ≠ '\\') :
    replaceLine (c :: l) = c :: replaceLine l := by
  rcases l with _ | ⟨d, _ | ⟨e, _ | ⟨f, _ | ⟨g2, r⟩⟩⟩⟩ <;> simp [replaceLine, h]

/-- `hexDecode` passes over a non-backslash character. -/
theorem hexDecode_cons (c : Char) (l : List Char) (h : c ≠ '\\') :
    hexDecode (c :: l) = c :: hexDecode l := by
  rcases l with _ | ⟨d, _ | ⟨e, _ | ⟨f, r⟩⟩⟩ <;> simp [hexDecode, h]

/-! ## Plain strings: the round-trip-safe class -/

/-- A plain word character: not JS whitespace, not a backslash, not a
brace. -/
def wordCharPlain (c : Char) : Bool :=
  !(isJsSpace c) && c != '\\' && c != '\x7b' && c != '\x7d'

/-- Tail of a plain string: spaces are single, interior, and followed
by a word character; every other character is a word character. -/
def plainTail : List Char → Bool
  | [] => true
  | c :: r =>
    if c = ' ' then
      match r with
      | [] => false
      | d :: r2 => wordCharPlain d && plainTail r2
    else wordCharPlain c && plainTail r

/-- A plain string: empty, or led by a word character with a plain
tail. Its whitespace consists exactly of single interior spaces. -/
def plainOk : List Char → Bool
  | [] => true
  | c :: r => wordCharPlain c && plainTail r

/-- What a plain word character is not. -/
theorem wordCharPlain_facts (c : Char) (h : wordCharPlain c = true) :
    isJsSpace c = false ∧ ¬ c = '\\' ∧ ¬ c = '\x7b' ∧ ¬ c = '\x7d' ∧ ¬ c = '\n' := by
  simp only [wordCharPlain, Bool.and_eq_true, Bool.not_eq_true', bne_iff_ne, ne_eq] at h
  obtain ⟨⟨⟨hs, h1⟩, h2⟩, h3⟩ := h
  refine ⟨hs, h1, h2, h3, ?_⟩
  intro hnl
  rw [hnl] at hs
  simp [isJsSpace] at hs

/-- A word character is not a space. -/
theorem wordCharPlain_ne_space (c : Char) (h : wordCharPlain c = true) : ¬ c = ' ' := by
  intro he
  rw [he] at h
  simp [wordCharPlain, isJsSpace] at h

/-- Rebuild a plain tail from a word-character head. -/
theorem plainTail_reconstruct (d : Char) (r2 : List Char) (hd : wordCharPlain d = true)
    (h : plainTail r2 = true) : plainTail (d :: r2) = true := by
  unfold plainTail
  rw [if_neg (wordCharPlain_ne_space d hd)]
  simp [hd, h]

/-- Characters of a plain tail are word characters or spaces. -/
theorem plainTail_mem : ∀ (l : List Char), plainTail l = true →
    ∀ c ∈ l, wordCharPlain c = true ∨ c = ' ' := by
  intro l
  induction l with
  | nil => intro _ c hc; simp at hc
  | cons a r ih =>
    intro h c hc
    by_cases ha : a = ' '
    · subst ha
      unfold plainTail at h
      rw [if_pos rfl] at h
      rcases r with _ | ⟨d, r2⟩
      · simp at h
      · simp only [Bool.and_eq_true] at h
        rcases List.mem_cons.mp hc with hc1 | hc2
        · right; exact hc1
        · exact ih (plainTail_reconstruct d r2 h.1 h.2) c hc2
    · unfold plainTail at h
      rw [if_neg ha] at h
      simp only [Bool.and_eq_true] at h
      rcases List.mem_cons.mp hc with hc1 | hc2
      · left; exact hc1 ▸ h.1
      · exact ih h.2 c hc2

/-- Characters of a plain string are word characters or spaces. -/
theorem plainOk_mem (l : List Char) (h : plainOk l = true) :
    ∀ c ∈ l, wordCharPlain c = true ∨ c = ' ' := by
  rcases l with _ | ⟨a, r⟩
  · intro c hc; simp at hc
  · unfold plainOk at h
    simp only [Bool.and_eq_true] at h
    intro c hc
    rcases List.mem_cons.mp hc with hc1 | hc2
    · left; exact hc1 ▸ h.1
    · exact plainTail_mem r h.2 c hc2

/-- `collapseWS` is the identity on a plain tail. -/
theorem collapseWS_plainTail : ∀ (l : List Char), plainTail l = true → collapseWS l = l := by
  intro l
  induction l with
  | nil => intro _; rfl
  | cons a r ih =>
    intro h
    by_cases ha : a = ' '
    · subst ha
      unfold plainTail at h
      rw [if_pos rfl] at h
      rcases r with _ | ⟨d, r2⟩
      · simp at h
      · simp only [Bool.and_eq_true] at h
        rw [collapseWS_cons_ws ' ' (d :: r2) (by decide)]
        have hdne : isJsSpace d = false := (wordCharPlain_facts d h.1).1
        rw [List.dropWhile_cons_of_neg (by simp [hdne])]
        rw [ih (plainTail_reconstruct d r2 h.1 h.2)]
    · unfold plainTail at h
      rw [if_neg ha] at h
      simp only [Bool.and_eq_true] at h
      rw [collapseWS_cons_nws a r (wordCharPlain_facts a h.1).1, ih h.2]

/-- `collapseWS` is the identity on a plain string. -/
theorem collapseWS_plainOk (l : List Char) (h : plainOk l = true) : collapseWS l = l := by
  rcases l with _ | ⟨a, r⟩
  · rfl
  · unfold plainOk at h
    simp only [Bool.and_eq_true] at h
    rw [collapseWS_cons_nws a r (wordCharPlain_facts a h.1).1,
      collapseWS_plainTail r h.2]

/-- The last character of a nonempty plain tail is not whitespace. -/
theorem plainTail_getLast : ∀ (l : List Char), plainTail l = true →
    ∀ c, l.getLast? = some c → isJsSpace c = false := by
  intro l
  induction l with
  | nil => intro _ c hc; simp at hc
  | cons a r ih =>
    intro h c hc
    by_cases ha : a = ' '
    · subst ha
      unfold plainTail at h
      rw [if_pos rfl] at h
      rcases r with _ | ⟨d, r2⟩
      · simp at h
      · simp only [Bool.and_eq_true] at h
        rw [List.getLast?_cons_cons] at hc
        exact ih (plainTail_reconstruct d r2 h.1 h.2) c hc
    · unfold plainTail at h
      rw [if_neg ha] at h
      simp only [Bool.and_eq_true] at h
      rcases r with _ | ⟨d, r2⟩
      · simp only [List.getLast?_singleton, Option.some.injEq] at hc
        exact hc ▸ (wordCharPlain_facts a h.1).1
      · rw [List.getLast?_cons_cons] at hc
        exact ih h.2 c hc

/-- `trimWS` is the identity on a plain string. -/
theorem trimWS_plainOk (l : List Char) (h : plainOk l = true) : trimWS l = l := by
  rcases hl : l with _ | ⟨a, r⟩
  · rfl
  · subst hl
    unfold plainOk at h
    simp only [Bool.and_eq_true] at h
    unfold trimWS
    rw [List.dropWhile_cons_of_neg (by simp [(wordCharPlain_facts a h.1).1])]
    rcases hrev : (a :: r).reverse with _ | ⟨b, rr⟩
    · simp at hrev
    · have hlast : (a :: r).getLast? = some b := by
        rw [← List.head?_reverse, hrev]
        rfl
      have hb : isJsSpace b = false := by
        rcases r with _ | ⟨d, r2⟩
        · simp only [List.getLast?_singleton, Option.some.injEq] at hlast
          exact hlast ▸ (wordCharPlain_facts a h.1).1
        · rw [List.getLast?_cons_cons] at hlast
          exact plainTail_getLast (d :: r2) h.2 b hlast
      rw [List.dropWhile_cons_of_neg (by simp [hb]), ← hrev, List.reverse_reverse]

/-- `escapeRtf` is the identity on plain characters. -/
theorem escapeRtf_plain (s : List Char) (h : ∀ c ∈ s, wordCharPlain c = true ∨ c = ' ') :
    escapeRtf s = s := by
  induction s with
  | nil => rfl
  | cons c r ih =>
    have hc := h c (by simp)
    have hfacts : ¬ c = '\\' ∧ ¬ c = '\x7b' ∧ ¬ c = '\x7d' ∧ ¬ c = '\n' := by
      rcases hc with hw | hsp
      · obtain ⟨_, h1, h2, h3, h4⟩ := wordCharPlain_facts c hw
        exact ⟨h1, h2, h3, h4⟩
      · subst hsp
        refine ⟨by decide, by decide, by decide, by decide⟩
    simp only [escapeRtf, hfacts.1, hfacts.2.1, hfacts.2.2.1, hfacts.2.2.2, if_false,
      List.singleton_append]
    rw [ih fun c hc => h c (by simp [hc])]

/-- `replacePar` distributes over an append whose first part has no
backslash. -/
theorem replacePar_append (s t : List Char) (h : ∀ c ∈ s, ¬ c = '\\') :
    replacePar (s ++ t) = s ++ replacePar t := by
  induction s with
  | nil => simp
  | cons c r ih =>
    rw [List.cons_append, replacePar_cons c _ (h c (by simp)),
      ih fun c hc => h c (by simp [hc]), List.cons_append]

/-- `replaceLine` distributes over an append whose first part has no
backslash. -/
theorem replaceLine_append (s t : List Char) (h : ∀ c ∈ s, ¬ c = '\\') :
    replaceLine (s ++ t) = s ++ replaceLine t := by
  induction s with
  | nil => simp
  | cons c r ih =>
    rw [List.cons_append, replaceLine_cons c _ (h c (by simp)),
      ih fun c hc => h c (by simp [hc]), List.cons_append]

/-- `stripCW` distributes over an append whose first part has no
backslash. -/
theorem stripCW_append (s t : List Char) (h : ∀ c ∈ s, ¬ c = '\\') :
    stripCW (s ++ t) = s ++ stripCW t := by
  induction s with
  | nil => simp
  | cons c r ih =>
    rw [List.cons_append, stripCW_cons c _ (h c (by simp)),
      ih fun c hc => h c (by simp [hc]), List.cons_append]

/-- `removeBlock` is the identity on a list with no opening brace. -/
theorem removeBlock_id (pat : List Char) (l : List Char) (h : ∀ c ∈ l, ¬ c = '\x7b') :
    removeBlock pat l = l := by
  induction l with
  | nil => rfl
  | cons c r ih =>
    have hc : (c = '\x7b' && pat.isPrefixOf r) = false := by
      simp [h c (by simp)]
    rw [removeBlock_cons pat c r hc, ih fun c hc => h c (by simp [hc])]

/-- `hexDecode` is the identity on a list with no backslash. -/
theorem hexDecode_id (l : List Char) (h : ∀ c ∈ l, ¬ c = '\\') : hexDecode l = l := by
  induction l with
  | nil => rfl
  | cons c r ih =>
    rw [hexDecode_cons c r (h c (by simp)), ih fun c hc => h c (by simp [hc])]

/-- `removeBraces` is the identity on a brace-free list. -/
theorem removeBraces_id (l : List Char) (h : ∀ c ∈ l, ¬ c = '\x7b' ∧ ¬ c = '\x7d') :
    removeBraces l = l := by
  induction l with
  | nil => rfl
  | cons c r ih =>
    rw [removeBraces, List.filter_cons]
    have hc := h c (by simp)
    have hcond : (c != '\x7b' && c != '\x7d') = true := by
      simp [hc.1, hc.2]
    rw [hcond]
    simp only [if_true]
    rw [show List.filter (fun c => c != '\x7b' && c != '\x7d') r = removeBraces r from rfl,
      ih fun c hc => h c (by simp [hc])]

/-- The default-font RTF wrapper, flattened, for a string the escaper
leaves alone. -/
theorem textToRtfD_plain (s : List Char) (h : escapeRtf s = s) :
    textToRtfD s =
      "\x7b\\rtf1\\ansi\\deff0\x7b\\fonttbl\x7b\\f0 Arial;\x7d\x7d\\f0\\fs96 ".toList ++
        (s ++ ['\x7d']) := by
  unfold textToRtfD textToRtf
  rw [h]
  rfl

/-- Header stripping on the default wrapper. -/
theorem stage_header (X : List Char) :
    stripHeader ("\x7b\\rtf1\\ansi\\deff0\x7b\\fonttbl\x7b\\f0 Arial;\x7d\x7d\\f0\\fs96 ".toList ++ X) =
      '\x7d' :: ("\\f0\\fs96 ".toList ++ X) := rfl

/-- `\par` replacement passes over the stripped wrapper remainder. -/
theorem stage_par (X : List Char) :
    replacePar ('\x7d' :: ("\\f0\\fs96 ".toList ++ X)) =
      '\x7d' :: ("\\f0\\fs96 ".toList ++ replacePar X) := rfl

/-- `\line` replacement passes over the stripped wrapper remainder. -/
theorem stage_line (X : List Char) :
    replaceLine ('\x7d' :: ("\\f0\\fs96 ".toList ++ X)) =
      '\x7d' :: ("\\f0\\fs96 ".toList ++ replaceLine X) := rfl

/-- Control-word stripping consumes `\f0` and `\fs96 ` (with its
separating space) from the wrapper remainder. -/
theorem stage_cw (X : List Char) :
    stripCW ('\x7d' :: ("\\f0\\fs96 ".toList ++ X)) = '\x7d' :: stripCW X := by
  rw [stripCW_cons '\x7d' _ (by decide)]
  show '\x7d' :: stripCW ('\\' :: 'f' :: ('0' :: '\\' :: 'f' :: 's' :: '9' :: '6' :: ' ' :: X)) =
    '\x7d' :: stripCW X
  rw [stripCW_bs 'f' _ (by decide)]
  have e1 : afterLetters (List.dropWhile isAsciiLetter
      ('0' :: '\\' :: 'f' :: 's' :: '9' :: '6' :: ' ' :: X)) =
      '\\' :: 'f' :: 's' :: '9' :: '6' :: ' ' :: X := rfl
  rw [e1, stripCW_bs 'f' _ (by decide)]
  have e2 : afterLetters (List.dropWhile isAsciiLetter ('s' :: '9' :: '6' :: ' ' :: X)) = X := rfl
  rw [e2]

/-- C5 (amended): the rich-text round-trip `rtfToText (textToRtf s) = s`
holds exactly for the plain strings: no backslash or brace characters,
and every whitespace character is a single interior space (in
particular no newlines, no leading/trailing or doubled spaces — those
are destroyed by the whitespace-collapse and trim stages, see the
counterexample). -/
theorem rtf_roundtrip_plain (s : List Char) (hok : plainOk s = true) :
    rtfToText (textToRtfD s) = s := by
  have hmem := plainOk_mem s hok
  have hesc := escapeRtf_plain s hmem
  have hnb : ∀ c ∈ s, ¬ c = '\\' := by
    intro c hc
    rcases hmem c hc with hw | hsp
    · exact (wordCharPlain_facts c hw).2.1
    · subst hsp; decide
  have hlb : ∀ c ∈ s, ¬ c = '\x7b' := by
    intro c hc
    rcases hmem c hc with hw | hsp
    · exact (wordCharPlain_facts c hw).2.2.1
    · subst hsp; decide
  have hrb : ∀ c ∈ s, ¬ c = '\x7d' := by
    intro c hc
    rcases hmem c hc with hw | hsp
    · exact (wordCharPlain_facts c hw).2.2.2.1
    · subst hsp; decide
  have hnolb : ∀ c ∈ '\x7d' :: ("\\f0\\fs96 ".toList ++ (s ++ ['\x7d'])), ¬ c = '\x7b' := by
    intro c hc
    rcases List.mem_cons.mp hc with h1 | h2
    · subst h1; decide
    · rcases List.mem_append.mp h2 with h3 | h4
      · have hx : ∀ c ∈ "\\f0\\fs96 ".toList, ¬ c = '\x7b' := by decide
        exact hx c h3
      · rcases List.mem_append.mp h4 with h5 | h6
        · exact hlb c h5
        · have h7 : c = '\x7d' := by simpa using h6
          subst h7; decide
  rw [textToRtfD_plain s hesc]
  unfold rtfToText
  rw [stage_header (s ++ ['\x7d']), stage_par (s ++ ['\x7d']),
    replacePar_append s ['\x7d'] hnb, show replacePar ['\x7d'] = ['\x7d'] from rfl,
    stage_line (s ++ ['\x7d']), replaceLine_append s ['\x7d'] hnb,
    show replaceLine ['\x7d'] = ['\x7d'] from rfl,
    removeBlock_id _ _ hnolb, removeBlock_id _ _ hnolb, removeBlock_id _ _ hnolb,
    stage_cw (s ++ ['\x7d']), stripCW_append s ['\x7d'] hnb,
    show stripCW ['\x7d'] = ['\x7d'] from rfl]
  have hbr : removeBraces ('\x7d' :: (s ++ ['\x7d'])) = s := by
    rw [removeBraces, List.filter_cons]
    have hc0 : (('\x7d' != '\x7b') && ('\x7d' != '\x7d')) = false := by decide
    rw [hc0]
    simp only [Bool.false_eq_true, if_false]
    rw [List.filter_append]
    rw [show List.filter (fun c => c != '\x7b' && c != '\x7d') s = removeBraces s from rfl,
      removeBraces_id s (fun c hc => ⟨hlb c hc, hrb c hc⟩)]
    simp
  rw [hbr, collapseWS_plainOk s hok, trimWS_plainOk s hok, hexDecode_id s hnb]

/-- C5 (counterexample): `"a\nb"` contains no backslash, no brace and
no carriage return, yet the round-trip loses the newline: the encoded
`\par` is decoded to a newline that the whitespace-collapse stage then
folds into a single space, giving `"a b"`. -/
theorem rtf_roundtrip_newline_fails :
    rtfToText (textToRtfD "a\nb".toList) = "a b".toList ∧
      rtfToText (textToRtfD "a\nb".toList) ≠ "a\nb".toList ∧
      ∀ c ∈ "a\nb".toList, ¬ c = '\\' ∧ ¬ c = '\x7b' ∧ ¬ c = '\x7d' ∧ ¬ c = '\r' := by
  refine ⟨by decide, by decide, by decide⟩

/-- C5 (witness): the amended round-trip applied at `"Hi there"`. -/
theorem rtf_roundtrip_plain_witness :
    plainOk "Hi there".toList = true ∧
      rtfToText (textToRtfD "Hi there".toList) = "Hi there".toList :=
  ⟨by decide, rtf_roundtrip_plain "Hi there".toList (by decide)⟩

/-- The fuel-bounded pipeline executor: every scanning stage runs under
an explicit step budget equal to its input length and reports `none` if
the budget is exhausted (which would correspond to the scan failing to
terminate). -/
def rtfToTextO (l : List Char) : Option (List Char) :=
  let s3 := replaceLine (replacePar (stripHeader l))
  match removeBlockFO "\\fonttbl".toList s3.length s3 with
  | none => none
  | some s4 =>
    match removeBlockFO "\\colortbl".toList s4.length s4 with
    | none => none
    | some s5 =>
      match removeBlockFO "\\stylesheet".toList s5.length s5 with
      | none => none
      | some s6 =>
        match stripCWO s6.length s6 with
        | none => none
        | some s7 =>
          let s8 := removeBraces s7
          match collapseWSO s8.length s8 with
          | none => none
          | some s9 => some (hexDecode (trimWS s9))

/-- C9: `rtfToText` is total and never fails: on EVERY input — however
malformed its markup — the bounded executor completes every scanning
stage within its step budget and returns the best-effort plain text
`rtfToText` denotes; no input can make the pipeline fail or diverge. -/
theorem rtfToText_never_fails (l : List Char) : rtfToTextO l = some (rtfToText l) := by
  unfold rtfToTextO rtfToText
  dsimp only
  obtain ⟨s4, hs4⟩ := Option.isSome_iff_exists.mp
    (removeBlockFO_some "\\fonttbl".toList
      (replaceLine (replacePar (stripHeader l))).length
      (replaceLine (replacePar (stripHeader l))) (le_refl _))
  have h4 : removeBlock "\\fonttbl".toList (replaceLine (replacePar (stripHeader l))) = s4 := by
    rw [removeBlock, hs4]; rfl
  rw [hs4, h4]
  dsimp only
  obtain ⟨s5, hs5⟩ := Option.isSome_iff_exists.mp
    (removeBlockFO_some "\\colortbl".toList s4.length s4 (le_refl _))
  have h5 : removeBlock "\\colortbl".toList s4 = s5 := by
    rw [removeBlock, hs5]; rfl
  rw [hs5, h5]
  dsimp only
  obtain ⟨s6, hs6⟩ := Option.isSome_iff_exists.mp
    (removeBlockFO_some "\\stylesheet".toList s5.length s5 (le_refl _))
  have h6 : removeBlock "\\stylesheet".toList s5 = s6 := by
    rw [removeBlock, hs6]; rfl
  rw [hs6, h6]
  dsimp only
  obtain ⟨s7, hs7⟩ := Option.isSome_iff_exists.mp (stripCWO_some s6.length s6 (le_refl _))
  have h7 : stripCW s6 = s7 := by
    rw [stripCW, hs7]; rfl
  rw [hs7, h7]
  dsimp only
  obtain ⟨s9, hs9⟩ := Option.isSome_iff_exists.mp
    (collapseWSO_some (removeBraces s7).length (removeBraces s7) (le_refl _))
  have h9 : collapseWS (removeBraces s7) = s9 := by
    rw [collapseWS, hs9]; rfl
  rw [hs9, h9]

/-! ## Varint lemmas -/

/-- Fuel irrelevance for `varintEncF`. -/
theorem varintEncF_irrel : ∀ f g n : Nat, n ≤ f → n ≤ g → varintEncF f n = varintEncF g n := by
  intro f
  induction f with
  | zero =>
    intro g n hf _
    interval_cases n
    cases g with
    | zero => rfl
    | succ g => simp [varintEncF]
  | succ f ih =>
    intro g n hf hg
    cases g with
    | zero =>
      interval_cases n
      simp [varintEncF]
    | succ g =>
      simp only [varintEncF]
      by_cases h : n < 128
      · simp [h]
      · simp only [h, if_false]
        have hdiv : n / 128 ≤ f := by
          have h1 : n / 128 < n := Nat.div_lt_self (by omega) (by omega)
          omega
        have hdiv2 : n / 128 ≤ g := by
          have h1 : n / 128 < n := Nat.div_lt_self (by omega) (by omega)
          omega
        rw [ih g (n / 128) hdiv hdiv2]

/-- The recursion equation of `varintEnc`. -/
theorem varintEnc_eq (n : Nat) :
    varintEnc n = if n < 128 then [n] else (n % 128 + 128) :: varintEnc (n / 128) := by
  cases n with
  | zero => rfl
  | succ n =>
    show varintEncF (n + 1) (n + 1) = _
    simp only [varintEncF]
    by_cases h : n + 1 < 128
    · simp [h]
    · simp only [h, if_false]
      have hd : (n + 1) / 128 < n + 1 := Nat.div_lt_self (by omega) (by omega)
      rw [varintEncF_irrel n ((n + 1) / 128) ((n + 1) / 128) (by omega) (le_refl _)]
      rfl

/-- A varint encoding is never empty. -/
theorem varintEnc_ne_nil (n : Nat) : varintEnc n ≠ [] := by
  rw [varintEnc_eq]
  by_cases h : n < 128 <;> simp [h]

/-- Decoding after encoding recovers the value and the remainder. -/
theorem varintDec_enc (n : Nat) : ∀ t, varintDec (varintEnc n ++ t) = some (n, t) := by
  induction n using Nat.strong_induction_on with
  | _ n ih =>
    intro t
    rw [varintEnc_eq]
    by_cases h : n < 128
    · simp [h, varintDec]
    · simp only [h, if_false, List.cons_append, varintDec]
      have hb : ¬ (n % 128 + 128 < 128) := by omega
      simp only [hb, if_false]
      rw [ih (n / 128) (Nat.div_lt_self (by omega) (by omega)) t]
      simp only [Option.some.injEq, Prod.mk.injEq]
      refine ⟨by omega, trivial⟩

/-- A successful varint decode consumes at least one byte. -/
theorem varintDec_length : ∀ (bs : List Nat) (v : Nat) (rest : List Nat),
    varintDec bs = some (v, rest) → rest.length < bs.length := by
  intro bs
  induction bs with
  | nil => intro v rest h; simp [varintDec] at h
  | cons b r ih =>
    intro v rest h
    simp only [varintDec] at h
    by_cases hb : b < 128
    · simp only [hb, if_true, Option.some.injEq, Prod.mk.injEq] at h
      rw [← h.2]
      simp
    · simp only [hb, if_false] at h
      rcases hd : varintDec r with _ | ⟨m, r2⟩
      · rw [hd] at h; simp at h
      · rw [hd] at h
        simp only [Option.some.injEq, Prod.mk.injEq] at h
        have := ih m r2 hd
        rw [← h.2]
        simp only [List.length_cons]
        omega

/-- A successful varint decode splits the input into a consumed prefix
that decodes deterministically before any continuation. -/
theorem varintDec_split : ∀ (bs : List Nat) (v : Nat) (rest : List Nat),
    varintDec bs = some (v, rest) →
    ∃ c, bs = c ++ rest ∧ c ≠ [] ∧ ∀ t, varintDec (c ++ t) = some (v, t) := by
  intro bs
  induction bs with
  | nil => intro v rest h; simp [varintDec] at h
  | cons b r ih =>
    intro v rest h
    simp only [varintDec] at h
    by_cases hb : b < 128
    · simp only [hb, if_true, Option.some.injEq, Prod.mk.injEq] at h
      obtain ⟨h1, h2⟩ := h
      subst h1
      subst h2
      refine ⟨[b], rfl, by simp, fun t => ?_⟩
      simp [varintDec, hb]
    · simp only [hb, if_false] at h
      rcases hd : varintDec r with _ | ⟨m, r2⟩
      · rw [hd] at h; simp at h
      · rw [hd] at h
        simp only [Option.some.injEq, Prod.mk.injEq] at h
        obtain ⟨h1, h2⟩ := h
        subst h1
        subst h2
        obtain ⟨c, hc1, _, hc3⟩ := ih m r2 hd
        refine ⟨b :: c, by simp [hc1], by simp, fun t => ?_⟩
        simp only [List.cons_append, varintDec, hb, if_false, List.append_eq]
        rw [hc3 t]

/-- A successful `parseField` splits the input into a nonempty consumed
prefix that re-parses deterministically before any continuation, and
yields a well-formed value with a nonzero field number. -/
theorem parseField_split (bs : List Nat) (f : Nat) (v : WireValue) (rest : List Nat)
    (h : parseField bs = some ((f, v), rest)) :
    ∃ c, bs = c ++ rest ∧ c ≠ [] ∧ (∀ t, parseField (c ++ t) = some ((f, v), t)) ∧
      wfWire v ∧ f ≠ 0 := by
  unfold parseField at h
  rcases hdec : varintDec bs with _ | ⟨tag, r1⟩
  · rw [hdec] at h; simp at h
  · rw [hdec] at h
    dsimp only at h
    by_cases hf0 : tag / 8 = 0
    · rw [if_pos hf0] at h; simp at h
    · rw [if_neg hf0] at h
      obtain ⟨c0, hc0, hc0ne, hc0det⟩ := varintDec_split bs tag r1 hdec
      by_cases hw0 : tag % 8 = 0
      · rw [if_pos hw0] at h
        rcases hdec2 : varintDec r1 with _ | ⟨n, r2⟩
        · rw [hdec2] at h; simp at h
        · rw [hdec2] at h
          dsimp only at h
          simp only [Option.some.injEq, Prod.mk.injEq] at h
          obtain ⟨⟨hf, hv⟩, hrest⟩ := h
          subst hf
          subst hv
          subst hrest
          obtain ⟨c1, hc1, hc1ne, hc1det⟩ := varintDec_split r1 n r2 hdec2
          refine ⟨c0 ++ c1, ?_, by simp [hc0ne], fun t => ?_, trivial, hf0⟩
          · rw [hc0, hc1, List.append_assoc]
          · unfold parseField
            rw [List.append_assoc, hc0det (c1 ++ t)]
            dsimp only
            rw [if_neg hf0, if_pos hw0, hc1det t]
      · by_cases hw1 : tag % 8 = 1
        · rw [if_neg hw0, if_pos hw1] at h
          by_cases hlen : 8 ≤ r1.length
          · rw [if_pos hlen] at h
            simp only [Option.some.injEq, Prod.mk.injEq] at h
            obtain ⟨⟨hf, hv⟩, hrest⟩ := h
            subst hf
            subst hv
            subst hrest
            have htk : (r1.take 8).length = 8 := by simp [List.length_take, hlen]
            refine ⟨c0 ++ r1.take 8, ?_, by simp [hc0ne], fun t => ?_, htk, hf0⟩
            · rw [hc0, List.append_assoc, List.take_append_drop]
            · unfold parseField
              rw [List.append_assoc, hc0det (r1.take 8 ++ t)]
              dsimp only
              rw [if_neg hf0, if_neg hw0, if_pos hw1,
                if_pos (by simp [List.length_append, htk] : 8 ≤ (r1.take 8 ++ t).length),
                List.take_left' htk, List.drop_left' htk]
          · rw [if_neg hlen] at h; simp at h
        · by_cases hw2 : tag % 8 = 2
          · rw [if_neg hw0, if_neg hw1, if_pos hw2] at h
            rcases hdec2 : varintDec r1 with _ | ⟨len, r2⟩
            · rw [hdec2] at h; simp at h
            · rw [hdec2] at h
              dsimp only at h
              by_cases hlen : len ≤ r2.length
              · rw [if_pos hlen] at h
                simp only [Option.some.injEq, Prod.mk.injEq] at h
                obtain ⟨⟨hf, hv⟩, hrest⟩ := h
                subst hf
                subst hv
                subst hrest
                obtain ⟨c1, hc1, hc1ne, hc1det⟩ := varintDec_split r1 len r2 hdec2
                have htk : (r2.take len).length = len := by simp [List.length_take, hlen]
                refine ⟨c0 ++ (c1 ++ r2.take len), ?_, by simp [hc0ne], fun t => ?_,
                  trivial, hf0⟩
                · rw [hc0, hc1, List.append_assoc, List.append_assoc, List.take_append_drop]
                · unfold parseField
                  rw [List.append_assoc, hc0det (c1 ++ r2.take len ++ t)]
                  dsimp only
                  rw [if_neg hf0, if_neg hw0, if_neg hw1, if_pos hw2, List.append_assoc,
                    hc1det (r2.take len ++ t)]
                  dsimp only
                  rw [if_pos (by simp [List.length_append, htk] : len ≤ (r2.take len ++ t).length),
                    List.take_left' htk, List.drop_left' htk]
              · rw [if_neg hlen] at h; simp at h
          · by_cases hw5 : tag % 8 = 5
            · rw [if_neg hw0, if_neg hw1, if_neg hw2, if_pos hw5] at h
              by_cases hlen : 4 ≤ r1.length
              · rw [if_pos hlen] at h
                simp only [Option.some.injEq, Prod.mk.injEq] at h
                obtain ⟨⟨hf, hv⟩, hrest⟩ := h
                subst hf
                subst hv
                subst hrest
                have htk : (r1.take 4).length = 4 := by simp [List.length_take, hlen]
                refine ⟨c0 ++ r1.take 4, ?_, by simp [hc0ne], fun t => ?_, htk, hf0⟩
                · rw [hc0, List.append_assoc, List.take_append_drop]
                · unfold parseField
                  rw [List.append_assoc, hc0det (r1.take 4 ++ t)]
                  dsimp only
                  rw [if_neg hf0, if_neg hw0, if_neg hw1, if_neg hw2, if_pos hw5,
                    if_pos (by simp [List.length_append, htk] : 4 ≤ (r1.take 4 ++ t).length),
                    List.take_left' htk, List.drop_left' htk]
              · rw [if_neg hlen] at h; simp at h
            · rw [if_neg hw0, if_neg hw1, if_neg hw2, if_neg hw5] at h
              simp at h

/-- An encoded field is never empty. -/
theorem encodeWire_ne_nil (f : Nat) (v : WireValue) : encodeWire f v ≠ [] := by
  cases v <;> simp [encodeWire, varintEnc_ne_nil]

/-- Parsing an encoded well-formed field recovers it before any
continuation. -/
theorem encodeWire_parse (f : Nat) (v : WireValue) (hwf : wfWire v) (hf : ¬ f = 0) :
    ∀ t, parseField (encodeWire f v ++ t) = some ((f, v), t) := by
  intro t
  have hdiv0 : (f * 8 + 0) / 8 = f := by omega
  have hdiv1 : (f * 8 + 1) / 8 = f := by omega
  have hdiv2 : (f * 8 + 2) / 8 = f := by omega
  have hdiv5 : (f * 8 + 5) / 8 = f := by omega
  cases v with
  | vint n =>
    show parseField (varintEnc (f * 8 + 0) ++ varintEnc n ++ t) = _
    unfold parseField
    rw [List.append_assoc, varintDec_enc (f * 8 + 0) (varintEnc n ++ t)]
    dsimp only
    rw [if_neg (show ¬ (f * 8 + 0) / 8 = 0 by omega),
      if_pos (show (f * 8 + 0) % 8 = 0 by omega), varintDec_enc n t]
    dsimp only
    rw [hdiv0]
  | fixed64 pay =>
    have hlen : pay.length = 8 := hwf
    show parseField (varintEnc (f * 8 + 1) ++ pay ++ t) = _
    unfold parseField
    rw [List.append_assoc, varintDec_enc (f * 8 + 1) (pay ++ t)]
    dsimp only
    rw [if_neg (show ¬ (f * 8 + 1) / 8 = 0 by omega),
      if_neg (show ¬ (f * 8 + 1) % 8 = 0 by omega),
      if_pos (show (f * 8 + 1) % 8 = 1 by omega),
      if_pos (show 8 ≤ (pay ++ t).length by simp [List.length_append, hlen]),
      List.take_left' hlen, List.drop_left' hlen, hdiv1]
  | lenDelim pay =>
    show parseField (varintEnc (f * 8 + 2) ++ varintEnc pay.length ++ pay ++ t) = _
    unfold parseField
    rw [List.append_assoc, List.append_assoc,
      varintDec_enc (f * 8 + 2) (varintEnc pay.length ++ (pay ++ t))]
    dsimp only
    rw [if_neg (show ¬ (f * 8 + 2) / 8 = 0 by omega),
      if_neg (show ¬ (f * 8 + 2) % 8 = 0 by omega),
      if_neg (show ¬ (f * 8 + 2) % 8 = 1 by omega),
      if_pos (show (f * 8 + 2) % 8 = 2 by omega), varintDec_enc pay.length (pay ++ t)]
    dsimp only
    rw [if_pos (show pay.length ≤ (pay ++ t).length by simp [List.length_append]),
      List.take_left' rfl, List.drop_left' rfl, hdiv2]
  | fixed32 pay =>
    have hlen : pay.length = 4 := hwf
    show parseField (varintEnc (f * 8 + 5) ++ pay ++ t) = _
    unfold parseField
    rw [List.append_assoc, varintDec_enc (f * 8 + 5) (pay ++ t)]
    dsimp only
    rw [if_neg (show ¬ (f * 8 + 5) / 8 = 0 by omega),
      if_neg (show ¬ (f * 8 + 5) % 8 = 0 by omega),
      if_neg (show ¬ (f * 8 + 5) % 8 = 1 by omega),
      if_neg (show ¬ (f * 8 + 5) % 8 = 2 by omega),
      if_pos (show (f * 8 + 5) % 8 = 5 by omega),
      if_pos (show 4 ≤ (pay ++ t).length by simp [List.length_append, hlen]),
      List.take_left' hlen, List.drop_left' hlen, hdiv5]

/-- A successful `parseField` consumes at least one byte. -/
theorem parseField_length (bs : List Nat) (fv : Nat × WireValue) (rest : List Nat)
    (h : parseField bs = some (fv, rest)) : rest.length < bs.length := by
  obtain ⟨c, hc, hcne, _⟩ := parseField_split bs fv.1 fv.2 rest (by simpa using h)
  rw [hc, List.length_append]
  rcases c with _ | ⟨a, c2⟩
  · exact absurd rfl hcne
  · simp only [List.length_cons]
    omega

/-- Fuel irrelevance for `decodeFieldsF`. -/
theorem decodeFieldsF_irrel :
    ∀ n m (bs : List Nat), bs.length ≤ n → bs.length ≤ m →
      decodeFieldsF n bs = decodeFieldsF m bs := by
  intro n
  induction n with
  | zero =>
    intro m bs hn _
    rcases bs with _ | ⟨b, r⟩
    · cases m <;> rfl
    · simp at hn
  | succ n ih =>
    intro m bs hn hm
    rcases bs with _ | ⟨b, r⟩
    · cases m <;> rfl
    · rcases m with _ | m
      · simp at hm
      · simp only [decodeFieldsF]
        rcases hp : parseField (b :: r) with _ | ⟨fv, rest⟩
        · rfl
        · dsimp only
          have hlt := parseField_length (b :: r) fv rest hp
          simp only [List.length_cons] at hn hm hlt
          rw [ih m rest (by omega) (by omega)]

/-- Soundness of `decodeFieldsF`: the stream is the concatenation of
the recorded raw segments, and every segment re-parses
deterministically to its field. -/
theorem decodeFieldsF_sound :
    ∀ (n : Nat) (bs : List Nat) (L : List (Nat × WireValue × List Nat)),
      bs.length ≤ n → decodeFieldsF n bs = some L →
      bs = (L.map fun x => x.2.2).flatten ∧
        ∀ x ∈ L, (∀ t, parseField (x.2.2 ++ t) = some ((x.1, x.2.1), t)) ∧
          wfWire x.2.1 ∧ ¬ x.1 = 0 ∧ x.2.2 ≠ [] := by
  intro n
  induction n with
  | zero =>
    intro bs L hlen h
    rcases bs with _ | ⟨b, r⟩
    · simp only [decodeFieldsF, Option.some.injEq] at h
      subst h
      exact ⟨rfl, by simp⟩
    · simp at hlen
  | succ n ih =>
    intro bs L hlen h
    rcases bs with _ | ⟨b, r⟩
    · simp only [decodeFieldsF, Option.some.injEq] at h
      subst h
      exact ⟨rfl, by simp⟩
    · simp only [decodeFieldsF] at h
      rcases hp : parseField (b :: r) with _ | ⟨fv, rest⟩
      · rw [hp] at h; simp at h
      · rw [hp] at h
        dsimp only at h
        rcases hdf : decodeFieldsF n rest with _ | l2
        · rw [hdf] at h; simp at h
        · rw [hdf] at h
          dsimp only at h
          simp only [Option.some.injEq] at h
          obtain ⟨c, hc, hcne, hcdet, hwf, hf0⟩ :=
            parseField_split (b :: r) fv.1 fv.2 rest (by simpa using hp)
          have hlt := parseField_length (b :: r) fv rest hp
          simp only [List.length_cons] at hlen hlt
          obtain ⟨ihflat, ihmem⟩ := ih rest l2 (by omega) hdf
          have htake : (b :: r).take ((b :: r).length - rest.length) = c := by
            rw [hc]
            have hlc : (c ++ rest).length - rest.length = c.length := by
              simp [List.length_append]
            rw [hlc, List.take_left' rfl]
          subst h
          constructor
          · simp only [List.map_cons, List.flatten_cons, htake, ← ihflat]
            exact hc
          · intro x hx
            rcases List.mem_cons.mp hx with hx1 | hx2
            · subst hx1
              dsimp only
              rw [htake]
              exact ⟨hcdet, hwf, hf0, hcne⟩
            · exact ihmem x hx2

/-- Completeness of `decodeFieldsF`: the concatenation of
deterministic segments parses back to exactly that segment list. -/
theorem decodeFieldsF_complete :
    ∀ (L : List (Nat × WireValue × List Nat)),
      (∀ x ∈ L, (∀ t, parseField (x.2.2 ++ t) = some ((x.1, x.2.1), t)) ∧ x.2.2 ≠ []) →
      decodeFieldsF ((L.map fun x => x.2.2).flatten).length ((L.map fun x => x.2.2).flatten) =
        some L := by
  intro L
  induction L with
  | nil => intro _; rfl
  | cons x l2 ih =>
    intro h
    obtain ⟨hdet, hne⟩ := h x (by simp)
    have hrest := ih fun y hy => h y (by simp [hy])
    rcases hx2 : x.2.2 with _ | ⟨a, raw2⟩
    · exact absurd hx2 hne
    · simp only [List.map_cons, List.flatten_cons, hx2, List.cons_append, List.length_cons,
        decodeFieldsF]
      have hdet2 := hdet ((l2.map fun y => y.2.2).flatten)
      rw [hx2] at hdet2
      simp only [List.cons_append] at hdet2
      rw [hdet2]
      dsimp only
      rw [decodeFieldsF_irrel (raw2 ++ (l2.map fun y => y.2.2).flatten).length
        ((l2.map fun y => y.2.2).flatten).length ((l2.map fun y => y.2.2).flatten)
        (by simp [List.length_append]) (le_refl _), hrest]
      dsimp only
      have hd : (raw2 ++ (l2.map fun x => x.2.2).flatten).length + 1 -
          ((l2.map fun y => y.2.2).flatten).length = raw2.length + 1 := by
        simp only [List.length_append]
        omega
      rw [hd]
      simp only [List.take_succ_cons]
      rw [List.take_left' rfl, ← hx2]

/-- `filterMap` of an if-some-else-none function is `map` over `filter`. -/
theorem filterMap_if_pos {α β : Type} (p : α → Prop) [DecidablePred p] (g : α → β) :
    ∀ l : List α,
      (l.filterMap fun x => if p x then some (g x) else none) =
        (l.filter fun x => decide (p x)).map g := by
  intro l
  induction l with
  | nil => rfl
  | cons a l2 ih =>
    by_cases hp : p a
    · simp [List.filterMap_cons, List.filter_cons, hp, ih]
    · simp [List.filterMap_cons, List.filter_cons, hp, ih]

/-- `filterMap` of an if-none-else-some function is `map` over the
complementary `filter`. -/
theorem filterMap_if_neg {α β : Type} (p : α → Prop) [DecidablePred p] (g : α → β) :
    ∀ l : List α,
      (l.filterMap fun x => if p x then none else some (g x)) =
        (l.filter fun x => !decide (p x)).map g := by
  intro l
  induction l with
  | nil => rfl
  | cons a l2 ih =>
    by_cases hp : p a
    · simp [List.filterMap_cons, List.filter_cons, hp, ih]
    · simp [List.filterMap_cons, List.filter_cons, hp, ih]

/-- `filterMap` of an everywhere-`some` function is a `map`. -/
theorem filterMap_congr_some {α β : Type} (f : α → Option β) (g : α → β) :
    ∀ l : List α, (∀ x ∈ l, f x = some (g x)) → l.filterMap f = l.map g := by
  intro l
  induction l with
  | nil => intro _; rfl
  | cons a l2 ih =>
    intro h
    rw [List.filterMap_cons, h a (List.mem_cons_self a l2)]
    rw [ih fun x hx => h x (List.mem_cons_of_mem a hx)]
    rfl

/-- `filterMap` of an everywhere-`none` function is empty. -/
theorem filterMap_congr_none {α β : Type} (f : α → Option β) :
    ∀ l : List α, (∀ x ∈ l, f x = none) → l.filterMap f = [] := by
  intro l
  induction l with
  | nil => intro _; rfl
  | cons a l2 ih =>
    intro h
    rw [List.filterMap_cons, h a (List.mem_cons_self a l2)]
    exact ih fun x hx => h x (List.mem_cons_of_mem a hx)

/-- C1: decode-then-encode round-trip. If a byte stream decodes (against
a schema) to a message, then re-encoding that message without mutation —
re-serialising the schema-described fields and re-emitting each
unrecognized field's saved raw bytes verbatim — produces a stream that
decodes to the very same message: unknown fields are preserved
byte-for-byte and nothing is lost or changed. -/
theorem decode_encode_roundtrip (schema : List Nat) (bs : List Nat) (d : Decoded)
    (h : decodeMessage schema bs = some d) :
    decodeMessage schema (encodeMessage d) = some d := by
  unfold decodeMessage at h
  rcases hdf : decodeFieldsF bs.length bs with _ | L
  · rw [hdf] at h; exact absurd h (by simp)
  · rw [hdf] at h
    dsimp only at h
    simp only [Option.some.injEq] at h
    obtain ⟨hflat, hmem⟩ := decodeFieldsF_sound bs.length bs L (le_refl _) hdf
    subst h
    have hknown :
        (L.filterMap fun x => if x.1 ∈ schema then some (x.1, x.2.1) else none) =
          (L.filter fun x => decide (x.1 ∈ schema)).map fun x => (x.1, x.2.1) :=
      filterMap_if_pos _ _ L
    have hunknown :
        (L.filterMap fun x => if x.1 ∈ schema then none else some (x.1, x.2.2)) =
          (L.filter fun x => !decide (x.1 ∈ schema)).map fun x => (x.1, x.2.2) :=
      filterMap_if_neg _ _ L
    set P1 := (L.filter fun x => decide (x.1 ∈ schema)).map
      (fun x => (x.1, x.2.1, encodeWire x.1 x.2.1)) with hP1
    set P2 := L.filter (fun x => !decide (x.1 ∈ schema)) with hP2
    have hE : encodeMessage
        { known := L.filterMap fun x => if x.1 ∈ schema then some (x.1, x.2.1) else none,
          unknown := L.filterMap fun x => if x.1 ∈ schema then none else some (x.1, x.2.2) } =
        ((P1 ++ P2).map fun x => x.2.2).flatten := by
      dsimp only [encodeMessage]
      rw [hknown, hunknown, hP1, hP2]
      simp [List.map_append, List.map_map, List.flatten_append, Function.comp]
      rfl
    have hprop : ∀ x ∈ P1 ++ P2,
        (∀ t, parseField (x.2.2 ++ t) = some ((x.1, x.2.1), t)) ∧ x.2.2 ≠ [] := by
      intro x hx
      rcases List.mem_append.mp hx with hx1 | hx2
      · rw [hP1] at hx1
        rcases List.mem_map.mp hx1 with ⟨y, hy, rfl⟩
        have hyL : y ∈ L := (List.mem_filter.mp hy).1
        obtain ⟨-, hwf, hf0, -⟩ := hmem y hyL
        exact ⟨encodeWire_parse y.1 y.2.1 hwf hf0, encodeWire_ne_nil y.1 y.2.1⟩
      · rw [hP2] at hx2
        have hxL : x ∈ L := (List.mem_filter.mp hx2).1
        obtain ⟨hdet, -, -, hne⟩ := hmem x hxL
        exact ⟨hdet, hne⟩
    have hcomp := decodeFieldsF_complete (P1 ++ P2) hprop
    rw [hE]
    unfold decodeMessage
    rw [hcomp]
    dsimp only
    have hk1 : (P1.filterMap fun x => if x.1 ∈ schema then some (x.1, x.2.1) else none) =
        P1.map fun x => (x.1, x.2.1) := by
      apply filterMap_congr_some
      intro x hx
      rw [hP1] at hx
      rcases List.mem_map.mp hx with ⟨y, hy, rfl⟩
      have hys : y.1 ∈ schema := by simpa using (List.mem_filter.mp hy).2
      simp [hys]
    have hk2 : (P2.filterMap fun x => if x.1 ∈ schema then some (x.1, x.2.1) else none) =
        ([] : List (Nat × WireValue)) := by
      apply filterMap_congr_none
      intro x hx
      rw [hP2] at hx
      have hxs : ¬ x.1 ∈ schema := by simpa using (List.mem_filter.mp hx).2
      simp [hxs]
    have hu1 : (P1.filterMap fun x => if x.1 ∈ schema then none else some (x.1, x.2.2)) =
        ([] : List (Nat × List Nat)) := by
      apply filterMap_congr_none
      intro x hx
      rw [hP1] at hx
      rcases List.mem_map.mp hx with ⟨y, hy, rfl⟩
      have hys : y.1 ∈ schema := by simpa using (List.mem_filter.mp hy).2
      simp [hys]
    have hu2 : (P2.filterMap fun x => if x.1 ∈ schema then none else some (x.1, x.2.2)) =
        P2.map fun x => (x.1, x.2.2) := by
      apply filterMap_congr_some
      intro x hx
      rw [hP2] at hx
      have hxs : ¬ x.1 ∈ schema := by simpa using (List.mem_filter.mp hx).2
      simp [hxs]
    rw [List.filterMap_append, List.filterMap_append, hk1, hk2, hu1, hu2,
      List.append_nil, List.nil_append, hknown, hunknown, hP1, hP2, List.map_map]
    rfl

/-- C1 witness: a concrete stream with a schema-described field (number
1) and an unknown field (number 3); the round-trip preserves both. -/
theorem decode_encode_roundtrip_witness :
    decodeMessage [1] [8, 5, 26, 2, 200, 7] =
        some ⟨[(1, .vint 5)], [(3, [26, 2, 200, 7])]⟩ ∧
      decodeMessage [1] (encodeMessage ⟨[(1, .vint 5)], [(3, [26, 2, 200, 7])]⟩) =
        some ⟨[(1, .vint 5)], [(3, [26, 2, 200, 7])]⟩ :=
  ⟨by decide, decode_encode_roundtrip [1] [8, 5, 26, 2, 200, 7] _ (by decide)⟩

end Pro
